import Mathlib

/-!
A verification development for the permutation-search engine of
`src/lib/libtools/rcomb.c`: the max-heap, the permutation container, the
partial-order matrix with transitive closure, and the two search drivers
(hill climbing and best-first).  The definitions below are shallow
embeddings of the C functions, keeping their names where Lean allows it.
C loops are embedded as fuel-indexed structural recursions; every fuel
argument passed by a caller strictly exceeds the loop's iteration bound,
so the out-of-fuel branch is unreachable and the functions compute exactly
what the C loops compute.
-/

set_option autoImplicit false
set_option maxRecDepth 10000

namespace Rcomb

/-! ### Partial order (poset functions of rcomb.c)

`po_relation_t` has the four values PO_LT, PO_EQ, PO_GT, PO_INCOMPARABLE;
`poInverse` maps LT and GT to each other and fixes the other two.
-/

/-- The four values of `po_relation_t`. -/
inductive PoRel : Type where
  | lt : PoRel
  | eq : PoRel
  | gt : PoRel
  | inc : PoRel
deriving DecidableEq, Repr

/-- `partial_order_t`: dimension plus a row-major `dim * dim` matrix. -/
structure Po where
  dim : Nat
  data : List PoRel
deriving DecidableEq, Repr

/-- `poNew`: all entries PO_INCOMPARABLE. -/
def poNew (n : Nat) : Po := ⟨n, List.replicate (n * n) PoRel.inc⟩

/-- `poInverse`. -/
def poInverse : PoRel → PoRel
  | PoRel.lt => PoRel.gt
  | PoRel.gt => PoRel.lt
  | PoRel.eq => PoRel.eq
  | PoRel.inc => PoRel.inc

/-- `poGet`: read entry `(u, v)` of the matrix. -/
def poGet (po : Po) (u v : Nat) : PoRel :=
  po.data.getD (u * po.dim + v) PoRel.inc

/-- `poSetOrder`: write `rel` at `(u, v)` and its inverse at `(v, u)`. -/
def poSetOrder (po : Po) (u v : Nat) (rel : PoRel) : Po :=
  { po with data := (po.data.set (u * po.dim + v) rel).set (v * po.dim + u) (poInverse rel) }

/-- `poIncomparable`. -/
def poIncomparable (po : Po) (u v : Nat) : Bool :=
  poGet po u v = PoRel.inc

/-- `poComparable`. -/
def poComparable (po : Po) (u v : Nat) : Bool :=
  poGet po u v ≠ PoRel.inc

/-- `poIsMin`: no `i` with `poGet u i = PO_GT`. -/
def poIsMin (po : Po) (u : Nat) : Bool :=
  (List.range po.dim).all fun i => poGet po u i ≠ PoRel.gt

/-- One conditional update of `poClosure`'s innermost body: if `(i, j)` is
incomparable and `poGet i k = poGet k j`, set `(i, j)` to that value. -/
def poClosureStep (k i j : Nat) (po : Po) : Po :=
  if poIncomparable po i j then
    if poGet po i k = poGet po k j then poSetOrder po i j (poGet po i k) else po
  else po

/-- The innermost `for (j = 0; j < n; j++)` loop of `poClosure`. -/
def poInnerJ (n k i : Nat) (po : Po) : Po :=
  (List.range n).foldl (fun po j => poClosureStep k i j po) po

/-- The middle `for (i = 0; i < n; i++)` loop of `poClosure`. -/
def poOuterK (n k : Nat) (po : Po) : Po :=
  (List.range n).foldl (fun po i => poInnerJ n k i po) po

/-- `poClosure`: Warshall-style triple loop `for k, for i, for j`, with
`n = po->dim` read once at entry. -/
def poClosure (po : Po) : Po :=
  let n := po.dim
  (List.range n).foldl (fun po k => poOuterK n k po) po

/-! ### Max-heap (1-based, slot 0 of the C array unused)

The C heap stores elements at indices `1 .. size`.  We model the element
area as a list whose position `p` holds C index `p + 1`; `hGet h i` is the
C read `data[i]`.
-/

/-- `heap_t` for values of type `α`: the `data` list holds C indices
`1 .. size`, so `size` is the list length. -/
structure Heap (α : Type) where
  capacity : Nat
  data : List (Int × α)
deriving DecidableEq, Repr

/-- `heap_new`. -/
def heapNew (α : Type) (n : Nat) : Heap α := ⟨n, []⟩

/-- `heap_size`. -/
def heapSize {α : Type} (h : Heap α) : Nat := h.data.length

/-- Read `data[i]` (1-based). -/
def hGet {α : Type} [Inhabited α] (l : List (Int × α)) (i : Nat) : Int × α :=
  l.getD (i - 1) (0, default)

/-- Exchange `data[i]` and `data[j]` (1-based). -/
def hSwap {α : Type} [Inhabited α] (l : List (Int × α)) (i j : Nat) : List (Int × α) :=
  (l.set (i - 1) (hGet l j)).set (j - 1) (hGet l i)

/-- The `largest` computation of `heapify`, verbatim with its two
deviations from CLRS: the child bounds use `l < size` and `r < size`
(instead of `≤`), and the second comparison reads
`data[i].key > data[largest].key` (instead of `data[r].key`). -/
def heapLargest {α : Type} [Inhabited α] (l : List (Int × α)) (i : Nat) : Nat :=
  let size := l.length
  let lc := 2 * i
  let rc := 2 * i + 1
  let largest := if lc < size ∧ (hGet l lc).1 > (hGet l i).1 then lc else i
  if rc < size ∧ (hGet l i).1 > (hGet l largest).1 then rc else largest

/-- `heapify` of rcomb.c: swap with `largest` and recurse while it
differs from `i`.  Fuel bounds the recursion depth; callers pass
`l.length + 1`, which exceeds the depth of any descent. -/
def heapify {α : Type} [Inhabited α] (fuel : Nat) (l : List (Int × α)) (i : Nat) :
    List (Int × α) :=
  match fuel with
  | 0 => l
  | fuel + 1 =>
    let largest := heapLargest l i
    if largest ≠ i then heapify fuel (hSwap l i largest) largest else l

/-- `heap_extract_max`: return `data[1].val`, move the last element to the
root, shrink, and sift down.  Precondition in C: `size > 0` (asserted). -/
def heapExtractMax {α : Type} [Inhabited α] (h : Heap α) : α × Heap α :=
  let maxE := hGet h.data 1
  let lastE := hGet h.data h.data.length
  let l1 := (h.data.set 0 lastE).dropLast
  (maxE.2, { h with data := heapify (l1.length + 1) l1 1 })

/-- The sift-up loop of `heap_insert`: while `i > 1` and the parent's key
is below `key`, pull the parent down.  Returns the final hole index and
the list.  Fuel bounds the depth; `i + 1` suffices since `i` halves. -/
def siftUp {α : Type} [Inhabited α] (fuel : Nat) (l : List (Int × α)) (i : Nat)
    (key : Int) : Nat × List (Int × α) :=
  match fuel with
  | 0 => (i, l)
  | fuel + 1 =>
    if i > 1 ∧ (hGet l (i / 2)).1 < key then
      siftUp fuel (l.set (i - 1) (hGet l (i / 2))) (i / 2) key
    else (i, l)

/-- The C assertion guarding `heap_insert`: `size < capacity`. -/
def heapInsertPre {α : Type} (h : Heap α) : Prop := h.data.length < h.capacity

/-- `heap_insert`: grow by one slot, sift up, place `(key, val)`. -/
def heapInsert {α : Type} [Inhabited α] (h : Heap α) (key : Int) (val : α) : Heap α :=
  let l0 := h.data ++ [(key, val)]
  let iv := siftUp (l0.length + 1) l0 l0.length key
  { h with data := iv.2.set (iv.1 - 1) (key, val) }

/-! ### Permutation (`permutation_t`) -/

/-- `permutation_t`: used length `size`, `capacity`, and the element
buffer.  The C buffer is uninitialized at creation; we model it
zero-filled (no code path below reads a slot before writing it). -/
structure Permutation where
  size : Nat
  capacity : Nat
  elements : List Nat
deriving DecidableEq, Repr

instance : Inhabited Permutation := ⟨⟨0, 0, []⟩⟩

/-- `pmNew`. -/
def pmNew (n : Nat) : Permutation := ⟨0, n, List.replicate n 0⟩

/-- `pmElt`: read `elements[i]`.  C precondition: `i < capacity`. -/
def pmElt (pm : Permutation) (i : Nat) : Nat := pm.elements.getD i 0

/-- `pmSetElt`: write `elements[i]`, extending `size` to `i + 1` if needed. -/
def pmSetElt (pm : Permutation) (i : Nat) (val : Nat) : Permutation :=
  { pm with elements := pm.elements.set i val,
            size := if i ≥ pm.size then i + 1 else pm.size }

/-- `pmSize` / `pmLength` (identical accessors in the C source). -/
def pmSize (pm : Permutation) : Nat := pm.size

/-- `pmLength`. -/
def pmLength (pm : Permutation) : Nat := pm.size

/-- `pmSetSize`.  C precondition: `n ≤ capacity`. -/
def pmSetSize (pm : Permutation) (n : Nat) : Permutation := { pm with size := n }

/-- `pmIdentity`: `elements[i] = i` for `i < capacity`, `size = capacity`. -/
def pmIdentity (pm : Permutation) : Permutation :=
  { pm with elements := List.range pm.capacity, size := pm.capacity }

/-- `pmSwap`: exchange `elements[i]` and `elements[j]`. -/
def pmSwap (pm : Permutation) (i j : Nat) : Permutation :=
  { pm with elements := (pm.elements.set i (pmElt pm j)).set j (pmElt pm i) }

/-- `pmCopy`: copy the first `src.size` elements and the size.
C precondition: `dst.capacity ≥ src.size`. -/
def pmCopy (dst src : Permutation) : Permutation :=
  { dst with elements := src.elements.take src.size ++ dst.elements.drop src.size,
             size := src.size }

/-- `pmCopyAll`: copy all `src.capacity` elements and the size.
C precondition: `dst.capacity ≥ src.capacity`. -/
def pmCopyAll (dst src : Permutation) : Permutation :=
  { dst with elements := src.elements.take src.capacity ++ dst.elements.drop src.capacity,
             size := src.size }

/-- `pmDup`: fresh permutation with `src`'s capacity, all elements, size. -/
def pmDup (src : Permutation) : Permutation :=
  ⟨src.size, src.capacity, src.elements.take src.capacity⟩

/-- `pmEqual`: equal sizes and equal used prefixes. -/
def pmEqual (pm1 pm2 : Permutation) : Bool :=
  pm1.size = pm2.size ∧ pm1.elements.take pm1.size = pm2.elements.take pm2.size

/-! ### Error codes and the evaluation callback

Modelled from the spec: `rcomb.h` (with the `RC_ERR_*` constants and the
driver structs) is not among the sources; the spec fixes `RC_ERR_NONE` as
zero ("progress made, call again"; "any other non-zero status" is an
oracle error), with `RC_ERR_NODATA` and `RC_ERR_COMPLETE` distinct
non-zero codes.
-/

/-- Modelled from the spec: `RC_ERR_NONE` is the zero status. -/
def RC_ERR_NONE : Int := 0

/-- Modelled from the spec: `RC_ERR_NODATA`, a fixed non-zero code. -/
def RC_ERR_NODATA : Int := 1

/-- Modelled from the spec: `RC_ERR_COMPLETE`, a fixed non-zero code. -/
def RC_ERR_COMPLETE : Int := 2

/-- The evaluation callback `evaluation_func_t` together with its opaque
context pointer: a pure function from the candidate permutation to the
pair (status, score), the C call `err = evf(context, perm, &score)`. -/
def EvalFn : Type := Permutation → Int × Int

/-! ### Hill climbing -/

/-- `check_valid_swap`: positions `u < v` of `perm` may be swapped iff the
endpoint elements are incomparable and every element strictly between is
incomparable with both endpoints. -/
def check_valid_swap (po : Po) (perm : Permutation) (u v : Nat) : Bool :=
  if poComparable po (pmElt perm u) (pmElt perm v) then false
  else (List.range' (u + 1) (v - (u + 1))).all fun i =>
    ¬ poComparable po (pmElt perm u) (pmElt perm i) ∧
    ¬ poComparable po (pmElt perm i) (pmElt perm v)

/-- `hc_state_t` (struct layout modelled from the spec, the header being
absent): current best, scratch permutation, `n`, cursor `(i, j)`, and the
improved flag (a C int that only ever holds 0 or 1). -/
structure HcState where
  best_seq : Permutation
  next_seq : Permutation
  n : Nat
  i : Nat
  j : Nat
  improved : Bool
deriving DecidableEq, Repr

/-- `hill_climb_init`. -/
def hill_climb_init (start : Permutation) : HcState :=
  ⟨pmDup start, pmNew (pmLength start), pmLength start, 0, 1, true⟩

/-- Result of the inner `while (i < n-1)` scan of `hill_climb_step`:
status, best, scratch, best score, improved flag, and cursor. -/
structure HcScan where
  err : Int
  best : Permutation
  next : Permutation
  bscore : Int
  improved : Bool
  i : Nat
  j : Nat

/-- The inner `while (i < n-1)` loop of `hill_climb_step`.  On an oracle
error the C code jumps to `done` with the swapped candidate still in
`next_seq` and the cursor at the failing pair.  Fuel exceeds the number
of remaining `(i, j)` steps whenever callers pass `(n + 1) * (n + 1)`. -/
def hcScan (po : Po) (evf : EvalFn) (n : Nat) (fuel : Nat) (best next : Permutation)
    (bscore : Int) (improved : Bool) (i j : Nat) : HcScan :=
  match fuel with
  | 0 => ⟨0, best, next, bscore, improved, i, j⟩
  | fuel + 1 =>
    if i < n - 1 then
      let step := fun (best next : Permutation) (bscore : Int) (improved : Bool) =>
        let i2 := if j + 1 ≥ n then i + 1 else i
        let j2 := if j + 1 ≥ n then i + 2 else j + 1
        hcScan po evf n fuel best next bscore improved i2 j2
      if check_valid_swap po next i j then
        let next1 := pmSwap next i j
        let es := evf next1
        if es.1 ≠ 0 then ⟨es.1, best, next1, bscore, improved, i, j⟩
        else if es.2 > bscore then
          step (pmCopy best next1) (pmSwap next1 i j) es.2 true
        else
          step best (pmSwap next1 i j) bscore improved
      else
        step best next bscore improved
    else ⟨0, best, next, bscore, improved, i, j⟩

/-- `hill_climb_step`.  The outer `while (!err && hc->improved)` can run
its body at most once: the body ends either via `goto done` with a
non-zero `err`, or having assigned `hc->improved = 0`; in both cases the
loop condition fails at the next test.  It is embedded accordingly. -/
def hill_climb_step (hc : HcState) (po : Po) (evf : EvalFn) : Int × HcState :=
  let es0 := evf hc.best_seq
  if es0.1 ≠ 0 then
    (RC_ERR_NODATA, { hc with next_seq := pmCopy hc.next_seq hc.best_seq })
  else if hc.improved then
    let s := hcScan po evf hc.n ((hc.n + 1) * (hc.n + 1))
      hc.best_seq (pmCopy hc.next_seq hc.best_seq) es0.2 hc.improved hc.i hc.j
    if s.err ≠ 0 then
      (s.err, { hc with best_seq := s.best, next_seq := s.next,
                        improved := s.improved, i := s.i, j := s.j })
    else
      (RC_ERR_COMPLETE, { hc with best_seq := s.best, next_seq := s.next,
                                  improved := false, i := 0, j := 1 })
  else
    (RC_ERR_COMPLETE, hc)

/-! ### Best-first search -/

/-- `is_valid_partial_perm`: no `PO_GT` between a decided element and any
later slot (decided or not). -/
def is_valid_partial_perm (po : Po) (perm : Permutation) (n : Nat) : Bool :=
  (List.range (pmLength perm)).all fun i =>
    (List.range' (i + 1) (n - (i + 1))).all fun j =>
      poGet po (pmElt perm i) (pmElt perm j) ≠ PoRel.gt

/-- Inner `for j` loop of `make_valid_perm`: `v1` caches the current
element at position `i`; on `PO_GT` the positions are swapped and `v1`
updated.  Fuel exceeds `n - j` whenever callers pass `n + 1`. -/
def mvpInner (po : Po) (n : Nat) (fuel : Nat) (perm : Permutation) (v1 : Nat)
    (i j : Nat) : Permutation :=
  match fuel with
  | 0 => perm
  | fuel + 1 =>
    if j < n then
      let v2 := pmElt perm j
      if poGet po v1 v2 = PoRel.gt then
        mvpInner po n fuel (pmSwap perm i j) v2 i (j + 1)
      else
        mvpInner po n fuel perm v1 i (j + 1)
    else perm

/-- Outer `for i` loop of `make_valid_perm`. -/
def mvpOuter (po : Po) (n : Nat) (fuel : Nat) (perm : Permutation) (i : Nat) :
    Permutation :=
  match fuel with
  | 0 => perm
  | fuel + 1 =>
    if i < n then
      mvpOuter po n fuel (mvpInner po n (n + 1) perm (pmElt perm i) i (i + 1)) (i + 1)
    else perm

/-- `make_valid_perm`: topological-sort-by-swap over positions
`[pmLength perm .. n)`. -/
def make_valid_perm (po : Po) (perm : Permutation) (n : Nat) : Permutation :=
  mvpOuter po n (n + 1) perm (pmLength perm)

/-- The four values of the best-first phase enum `RC_BFS_*`. -/
inductive BfPhase : Type where
  | init : BfPhase
  | visit : BfPhase
  | expand : BfPhase
  | done : BfPhase
deriving DecidableEq, Repr

/-- `bf_state_t` (struct layout modelled from the spec, the header being
absent).  The evaluation callback and its context are passed to
`best_first_step` as the `EvalFn` parameter instead of being stored: the
C code sets them once at init and never changes them. -/
structure BfState where
  n : Nat
  i : Nat
  j : Nat
  improved : Bool
  pq : Heap Permutation
  po : Po
  best_seq : Permutation
  next_seq : Permutation
  state : BfPhase
deriving DecidableEq, Repr

/-- `best_first_init`: the priority queue is allocated with capacity
`n * n`. -/
def best_first_init (n : Nat) (po : Po) : BfState :=
  ⟨n, 0, 0, true, heapNew Permutation (n * n), po, pmNew n, pmNew n, BfPhase.init⟩

/-- Result of a driver loop that may return `RC_ERR_NODATA` early:
the optional early status, the queue, the scratch permutation, and the
loop counter at exit. -/
structure BfLoopOut where
  early : Option Int
  pq : Heap Permutation
  next : Permutation
  ctr : Nat

/-- The `while (bf->i < n)` loop of the INIT phase: for each minimal `i`,
build the length-1 permutation, evaluate, and insert; on an oracle error,
expose the repaired full permutation and return NODATA with `bf->i`
unchanged.  Fuel exceeds `n - i` whenever callers pass `n + 1`. -/
def bfInitLoop (n : Nat) (po : Po) (evf : EvalFn) (fuel : Nat)
    (pq : Heap Permutation) (next : Permutation) (i : Nat) : BfLoopOut :=
  match fuel with
  | 0 => ⟨none, pq, next, i⟩
  | fuel + 1 =>
    if i < n then
      if poIsMin po i then
        let perm := pmSetSize (pmSwap (pmIdentity (pmNew n)) 0 i) 1
        let es := evf perm
        if es.1 ≠ 0 then
          let ns := pmSetSize (make_valid_perm po (pmCopyAll next perm) n) n
          ⟨some RC_ERR_NODATA, pq, ns, i⟩
        else
          bfInitLoop n po evf fuel (heapInsert pq es.2 perm) next (i + 1)
      else
        bfInitLoop n po evf fuel pq next (i + 1)
    else ⟨none, pq, next, i⟩

/-- The `while (bf->j < n)` loop of the EXPAND phase: fix position
`pmSize best` by swapping in the candidate at `j`; valid candidates are
evaluated and a duplicate inserted; on an oracle error, expose the
repaired full permutation and return NODATA with `bf->j` unchanged. -/
def bfExpandLoop (n : Nat) (po : Po) (evf : EvalFn) (fuel : Nat)
    (best : Permutation) (pq : Heap Permutation) (next : Permutation) (j : Nat) :
    BfLoopOut :=
  match fuel with
  | 0 => ⟨none, pq, next, j⟩
  | fuel + 1 =>
    if j < n then
      let pos := pmSize best
      let next1 := pmSetSize (pmSwap (pmCopyAll next best) pos j) (pos + 1)
      if is_valid_partial_perm po next1 n then
        let es := evf next1
        if es.1 ≠ 0 then
          let ns := pmSetSize (make_valid_perm po next1 n) n
          ⟨some RC_ERR_NODATA, pq, ns, j⟩
        else
          bfExpandLoop n po evf fuel best (heapInsert pq es.2 (pmDup next1)) next1 (j + 1)
      else
        bfExpandLoop n po evf fuel best pq next1 (j + 1)
    else ⟨none, pq, next, j⟩

/-- `best_first_step`. -/
def best_first_step (bf : BfState) (evf : EvalFn) : Int × BfState :=
  match bf.state with
  | BfPhase.init =>
    let out := bfInitLoop bf.n bf.po evf (bf.n + 1) bf.pq bf.next_seq bf.i
    match out.early with
    | some e => (e, { bf with pq := out.pq, next_seq := out.next, i := out.ctr })
    | none => (RC_ERR_NONE, { bf with pq := out.pq, next_seq := out.next, i := out.ctr,
                                      state := BfPhase.visit })
  | BfPhase.visit =>
    if heapSize bf.pq = 0 then
      (RC_ERR_COMPLETE, bf)
    else
      let vh := heapExtractMax bf.pq
      let best1 := pmCopyAll bf.best_seq vh.1
      if pmLength best1 = bf.n then
        (RC_ERR_COMPLETE, { bf with pq := vh.2, best_seq := best1, state := BfPhase.done })
      else
        (RC_ERR_NONE, { bf with pq := vh.2, best_seq := best1, state := BfPhase.expand,
                                j := pmSize best1 })
  | BfPhase.expand =>
    let out := bfExpandLoop bf.n bf.po evf (bf.n + 1) bf.best_seq bf.pq bf.next_seq bf.j
    match out.early with
    | some e => (e, { bf with pq := out.pq, next_seq := out.next, j := out.ctr })
    | none => (RC_ERR_NONE, { bf with pq := out.pq, next_seq := out.next, j := out.ctr,
                                      state := BfPhase.visit })
  | BfPhase.done =>
    (RC_ERR_NONE, { bf with pq := { bf.pq with data := [] }, state := BfPhase.init })

/-! ### Concrete scenarios used by individual claims -/

/-- Drain a heap of integers by repeated `heap_extract_max`. -/
def heapDrain (fuel : Nat) (h : Heap Int) : List Int :=
  match fuel with
  | 0 => []
  | fuel + 1 =>
    if h.data.length = 0 then []
    else
      let vh := heapExtractMax h
      vh.1 :: heapDrain fuel vh.2

/-- The heap of the spec's heap-ordering scenario: keys
`3, 1, 4, 1, 5, 9, 2, 6`, each value equal to its key. -/
def c2heap : Heap Int :=
  ([3, 1, 4, 1, 5, 9, 2, 6] : List Int).foldl (fun h k => heapInsert h k k) (heapNew Int 100)

/-- Insert keys `3, 1, 2, 0` (value = key) and extract once. -/
def c3heap : Heap Int :=
  (heapExtractMax (heapInsert (heapInsert (heapInsert (heapInsert
    (heapNew Int 10) 3 3) 1 1) 2 2) 0 0)).2

/-- The empty partial order on four elements. -/
def po4 : Po := poNew 4

/-- The oracle of the hill-climb convergence scenario:
always OK, score `-sum(i * perm[i])`. -/
def evalC1 : EvalFn := fun p =>
  (0, - ((((List.range 4).map (fun i => i * pmElt p i)).sum : Nat) : Int))

/-- One `hill_climb_step` from the identity permutation of length 4. -/
def hcRun1 : Int × HcState := hill_climb_step (hill_climb_init (pmIdentity (pmNew 4))) po4 evalC1

/-- An order with equalities only: `(0,1) = EQ`, `(1,2) = EQ` on 3 elements. -/
def poEq3 : Po := poSetOrder (poSetOrder (poNew 3) 0 1 PoRel.eq) 1 2 PoRel.eq

/-- A set-order-built matrix with a conflicting direct edge:
`(0,1) = LT`, `(1,2) = LT`, `(0,2) = GT`. -/
def poC5 : Po :=
  poSetOrder (poSetOrder (poSetOrder (poNew 3) 0 1 PoRel.lt) 1 2 PoRel.lt) 0 2 PoRel.gt

/-- A set-order-built matrix on 4 elements whose closure is not a
fixpoint of closure: `(0,1) = LT`, `(1,2) = LT`, `(0,2) = GT`,
`(2,3) = LT`. -/
def poC6 : Po :=
  poSetOrder (poSetOrder (poSetOrder (poSetOrder (poNew 4)
    0 1 PoRel.lt) 1 2 PoRel.lt) 0 2 PoRel.gt) 2 3 PoRel.lt

/-- `poC6` written out entrywise. -/
def poC6lit : Po :=
  ⟨4, [PoRel.inc, PoRel.lt, PoRel.gt, PoRel.inc,
       PoRel.gt, PoRel.inc, PoRel.lt, PoRel.inc,
       PoRel.lt, PoRel.gt, PoRel.inc, PoRel.lt,
       PoRel.inc, PoRel.inc, PoRel.gt, PoRel.inc]⟩

/-- `poClosure poC6` written out entrywise (the pass fills `(1,3)` and
`(3,1)` only). -/
def poC6closed : Po :=
  ⟨4, [PoRel.inc, PoRel.lt, PoRel.gt, PoRel.inc,
       PoRel.gt, PoRel.inc, PoRel.lt, PoRel.lt,
       PoRel.lt, PoRel.gt, PoRel.inc, PoRel.lt,
       PoRel.inc, PoRel.gt, PoRel.gt, PoRel.inc]⟩

/-- `poClosure (poClosure poC6)` written out entrywise (the second pass
additionally fills `(0,3)` and `(3,0)`). -/
def poC6closed2 : Po :=
  ⟨4, [PoRel.inc, PoRel.lt, PoRel.gt, PoRel.lt,
       PoRel.gt, PoRel.inc, PoRel.lt, PoRel.lt,
       PoRel.lt, PoRel.gt, PoRel.inc, PoRel.lt,
       PoRel.gt, PoRel.gt, PoRel.gt, PoRel.inc]⟩

/-- A partial order with a GT-cycle among `1, 2, 3` (element 0 minimal):
`(1,2) = GT`, `(2,3) = GT`, `(3,1) = GT`. -/
def poCyc : Po :=
  poSetOrder (poSetOrder (poSetOrder (poNew 4) 1 2 PoRel.gt) 2 3 PoRel.gt) 3 1 PoRel.gt

/-- One best-first step on `poCyc` from a fresh state with an oracle that
fails with status 5. -/
def bfCyc : Int × BfState := best_first_step (best_first_init 4 poCyc) (fun _ => (5, 0))

/-- One best-first step from a fresh one-element state with an oracle that
fails with status 42. -/
def bf42 : Int × BfState := best_first_step (best_first_init 1 (poNew 1)) (fun _ => (42, 0))

/-- An oracle for a two-element hill climb whose initial evaluation
succeeds and whose candidate evaluation fails with status `e`. -/
def evCand (e : Int) : EvalFn := fun p =>
  if p.elements = [0, 1] then (0, 0) else (e, 7)

/-- Well-formedness of a permutation: the buffer has exactly `capacity` slots. -/
def PermWf (p : Permutation) : Prop := p.elements.length = p.capacity

/-- The mirror invariant maintained by `poSetOrder`. -/
def mirrorOk (po : Po) : Prop :=
  ∀ u, u < po.dim → ∀ w, w < po.dim → poGet po w u = poInverse (poGet po u w)

/-- Transitivity of the strict GT relation of a matrix. -/
def gtTrans (po : Po) : Prop :=
  ∀ a, a < po.dim → ∀ b, b < po.dim → ∀ c, c < po.dim →
    poGet po a b = PoRel.gt → poGet po b c = PoRel.gt → poGet po a c = PoRel.gt

/-- Position `a` of `p` respects the order against every later slot. -/
def ValidAt (po : Po) (p : Permutation) (n a : Nat) : Prop :=
  ∀ b, a < b → b < n → poGet po (pmElt p a) (pmElt p b) ≠ PoRel.gt

/-- All positions below `i` respect the order against every later slot. -/
def SettledBelow (po : Po) (p : Permutation) (n i : Nat) : Prop :=
  ∀ a, a < i → ValidAt po p n a

def poW8 : Po := poSetOrder (poNew 2) 0 1 PoRel.lt

/-- A chain of edges all carrying the relation value `v` in `po`, from
`u` through the intermediate nodes of the list to `w`; every node must be
below the dimension. -/
def vChain (po : Po) (v : PoRel) : Nat → List Nat → Nat → Bool
  | u, [], w => decide (u < po.dim) && decide (w < po.dim) && decide (poGet po u w = v)
  | u, m :: l, w => decide (u < po.dim) && decide (poGet po u m = v) && vChain po v m l w

/-- `w` is reachable from `u` by a nonempty chain of `v`-edges. -/
def NReach (po : Po) (v : PoRel) (u w : Nat) : Prop :=
  ∃ l, vChain po v u l w = true

/-- All lists over `[0, n)` of length at most `k`. -/
def listsLE (n : Nat) : Nat → List (List Nat)
  | 0 => [[]]
  | k + 1 => [] :: (List.range n).flatMap (fun x => (listsLE n k).map (fun l => x :: l))

/-- Conflict-freedom of a matrix, phrased over bounded chains so that it
is decidable: no pair is joined by chains of two different relation
values. -/
def ConsistentBnd (po : Po) : Prop :=
  ∀ v1 ∈ [PoRel.lt, PoRel.eq, PoRel.gt], ∀ v2 ∈ [PoRel.lt, PoRel.eq, PoRel.gt],
  ∀ u ∈ List.range po.dim, ∀ w ∈ List.range po.dim,
    (∃ l ∈ listsLE po.dim po.dim, vChain po v1 u l w = true) →
    (∃ l ∈ listsLE po.dim po.dim, vChain po v2 u l w = true) → v1 = v2

/-- Conflict-freedom over unbounded chains. -/
def ConsistentPo (po : Po) : Prop :=
  ∀ v1 v2 u w, v1 ≠ PoRel.inc → v2 ≠ PoRel.inc →
    NReach po v1 u w → NReach po v2 u w → v1 = v2

/-- Well-formedness of the matrix buffer. -/
def WfPo (po : Po) : Prop := po.data.length = po.dim * po.dim

instance (po : Po) : Decidable (WfPo po) := by unfold WfPo; infer_instance

instance (po : Po) : Decidable (ConsistentBnd po) := by unfold ConsistentBnd; infer_instance

/-- Run invariant of `poClosure` relative to the input matrix `M0`:
dimension and buffer shape preserved, the mirror invariant holds, and
every comparable entry is justified by a chain of same-valued edges of
`M0` (soundness). -/
def ClosInv (M0 po : Po) : Prop :=
  po.dim = M0.dim ∧ WfPo po ∧ mirrorOk po ∧
  (∀ a b, a < po.dim → b < po.dim → ∀ v, v ≠ PoRel.inc →
    poGet po a b = v → NReach M0 v a b)

/-- Reachability by a chain whose intermediate nodes are all below `K`. -/
def BReach (M0 : Po) (v : PoRel) (K u w : Nat) : Prop :=
  ∃ l, vChain M0 v u l w = true ∧ ∀ m ∈ l, m < K

/-- The first `K` iterations of the outer loop of `poClosure`. -/
def foldK (M0 : Po) (K : Nat) : Po :=
  (List.range K).foldl (fun m k => poOuterK M0.dim k m) M0

def poChain3 : Po := poSetOrder (poSetOrder (poNew 3) 0 1 PoRel.lt) 1 2 PoRel.lt

/-- The best-first driver invariant of the spec: every permutation in the
priority queue is a valid partial permutation w.r.t. the partial order
and has capacity `n` (plus the well-formedness facts carried along: the
order's dimension is `n` and the two scratch permutations have capacity
`n` with full buffers). -/
def BfInv (bf : BfState) : Prop :=
  bf.po.dim = bf.n ∧
  PermWf bf.best_seq ∧ bf.best_seq.capacity = bf.n ∧
  PermWf bf.next_seq ∧ bf.next_seq.capacity = bf.n ∧
  ∀ e ∈ bf.pq.data,
    is_valid_partial_perm bf.po e.2 bf.n = true ∧ e.2.capacity = bf.n ∧ PermWf e.2


instance (p : Permutation) : Decidable (PermWf p) := by unfold PermWf; infer_instance

instance (po : Po) : Decidable (mirrorOk po) := by unfold mirrorOk; infer_instance

instance (po : Po) : Decidable (gtTrans po) := by unfold gtTrans; infer_instance

/-! ### Helper lemmas -/
theorem getD_mem {α : Type} [Inhabited α] (l : List α) (n : Nat) (h : n < l.length) :
    l.getD n default ∈ l := by
  rw [List.getD_eq_getElem l default h]
  exact l.getElem_mem h

theorem hGet_mem {α : Type} [Inhabited α] (l : List (Int × α)) (i : Nat)
    (h1 : 1 ≤ i) (h2 : i ≤ l.length) : hGet l i ∈ l := by
  unfold hGet
  have h3 : i - 1 < l.length := by omega
  rw [show ((0 : Int), (default : α)) = default from rfl]
  exact getD_mem l (i - 1) h3

theorem hSwap_length {α : Type} [Inhabited α] (l : List (Int × α)) (i j : Nat) :
    (hSwap l i j).length = l.length := by
  unfold hSwap
  simp

theorem hSwap_subset {α : Type} [Inhabited α] (l : List (Int × α)) (i j : Nat)
    (hi1 : 1 ≤ i) (hi2 : i ≤ l.length) (hj1 : 1 ≤ j) (hj2 : j ≤ l.length) :
    ∀ x ∈ hSwap l i j, x ∈ l := by
  intro x hx
  unfold hSwap at hx
  rcases List.mem_or_eq_of_mem_set hx with hx2 | hx2
  · rcases List.mem_or_eq_of_mem_set hx2 with hx3 | hx3
    · exact hx3
    · rw [hx3]; exact hGet_mem l j hj1 hj2
  · rw [hx2]; exact hGet_mem l i hi1 hi2

theorem heapLargest_cases {α : Type} [Inhabited α] (l : List (Int × α)) (i : Nat) :
    heapLargest l i = i ∨ (heapLargest l i = 2 * i ∧ 2 * i < l.length) ∨
      (heapLargest l i = 2 * i + 1 ∧ 2 * i + 1 < l.length) := by
  unfold heapLargest
  dsimp only
  by_cases h1 : 2 * i < l.length ∧ (hGet l (2 * i)).1 > (hGet l i).1
  · rw [if_pos h1]
    by_cases h2 : 2 * i + 1 < l.length ∧ (hGet l i).1 > (hGet l (2 * i)).1
    · rw [if_pos h2]; exact Or.inr (Or.inr ⟨rfl, h2.1⟩)
    · rw [if_neg h2]; exact Or.inr (Or.inl ⟨rfl, h1.1⟩)
  · rw [if_neg h1]
    by_cases h2 : 2 * i + 1 < l.length ∧ (hGet l i).1 > (hGet l i).1
    · rw [if_pos h2]; exact Or.inr (Or.inr ⟨rfl, h2.1⟩)
    · rw [if_neg h2]; exact Or.inl rfl

theorem heapify_subset {α : Type} [Inhabited α] :
    ∀ (fuel : Nat) (l : List (Int × α)) (i : Nat), 1 ≤ i → i ≤ l.length →
      ∀ x ∈ heapify fuel l i, x ∈ l := by
  intro fuel
  induction fuel with
  | zero => intro l i _ _ x hx; exact hx
  | succ fuel ih =>
    intro l i hi1 hi2 x hx
    rw [heapify] at hx
    split at hx
    · next hne =>
      rcases heapLargest_cases l i with hc | hc | hc
      · exact absurd hc hne
      · have h1 : 1 ≤ heapLargest l i := by omega
        have h2 : heapLargest l i ≤ (hSwap l i (heapLargest l i)).length := by
          rw [hSwap_length]; omega
        exact hSwap_subset l i (heapLargest l i) hi1 hi2 h1 (by omega) x
          (ih (hSwap l i (heapLargest l i)) (heapLargest l i) h1 h2 x hx)
      · have h1 : 1 ≤ heapLargest l i := by omega
        have h2 : heapLargest l i ≤ (hSwap l i (heapLargest l i)).length := by
          rw [hSwap_length]; omega
        exact hSwap_subset l i (heapLargest l i) hi1 hi2 h1 (by omega) x
          (ih (hSwap l i (heapLargest l i)) (heapLargest l i) h1 h2 x hx)
    · exact hx

theorem heapify_nil {α : Type} [Inhabited α] (fuel i : Nat) :
    heapify fuel ([] : List (Int × α)) i = [] := by
  cases fuel with
  | zero => rfl
  | succ fuel =>
    rw [heapify]
    rcases heapLargest_cases ([] : List (Int × α)) i with hc | hc | hc
    · rw [if_neg (by omega)]
    · simp at hc
    · simp at hc

theorem heapExtractMax_subset {α : Type} [Inhabited α] (h : Heap α) :
    ∀ x ∈ (heapExtractMax h).2.data, x ∈ h.data := by
  intro x hx
  unfold heapExtractMax at hx
  simp only at hx
  cases hd : h.data with
  | nil =>
    rw [hd] at hx
    simp at hx
    rw [heapify_nil] at hx
    exact absurd hx (List.not_mem_nil x)
  | cons a t =>
    rw [hd] at hx
    have hlen : 1 ≤ (a :: t).length := by simp
    have hsub1 : ∀ y ∈ ((a :: t).set 0 (hGet (a :: t) (a :: t).length)).dropLast, y ∈ a :: t := by
      intro y hy
      rcases List.mem_or_eq_of_mem_set (List.mem_of_mem_dropLast hy) with hy2 | hy2
      · exact hy2
      · rw [hy2]; exact hGet_mem (a :: t) (a :: t).length hlen (le_refl _)
    cases hq : ((a :: t).set 0 (hGet (a :: t) (a :: t).length)).dropLast with
    | nil =>
      rw [hq, heapify_nil] at hx
      exact absurd hx (List.not_mem_nil x)
    | cons b s =>
      have hlen2 : 1 ≤ ((a :: t).set 0 (hGet (a :: t) (a :: t).length)).dropLast.length := by
        rw [hq]; simp
      exact hsub1 x (heapify_subset _ _ 1 (le_refl 1) hlen2 x hx)

theorem siftUp_subset {α : Type} [Inhabited α] :
    ∀ (fuel : Nat) (l : List (Int × α)) (i : Nat) (key : Int), 1 ≤ i → i ≤ l.length →
      (∀ x ∈ (siftUp fuel l i key).2, x ∈ l) ∧ 1 ≤ (siftUp fuel l i key).1 ∧
      (siftUp fuel l i key).2.length = l.length := by
  intro fuel
  induction fuel with
  | zero => intro l i key h1 _; exact ⟨fun x hx => hx, h1, rfl⟩
  | succ fuel ih =>
    intro l i key h1 h2
    rw [siftUp]
    split
    · next hcond =>
      have hp1 : 1 ≤ i / 2 := by omega
      have hp2 : i / 2 ≤ (l.set (i - 1) (hGet l (i / 2))).length := by
        rw [List.length_set]; omega
      obtain ⟨hs1, hs2, hs3⟩ := ih (l.set (i - 1) (hGet l (i / 2))) (i / 2) key hp1 hp2
      refine ⟨?_, hs2, ?_⟩
      · intro x hx
        rcases List.mem_or_eq_of_mem_set (hs1 x hx) with hy | hy
        · exact hy
        · rw [hy]; exact hGet_mem l (i / 2) hp1 (by omega)
      · rw [hs3, List.length_set]
    · exact ⟨fun x hx => hx, h1, rfl⟩

theorem heapInsert_mem {α : Type} [Inhabited α] (h : Heap α) (key : Int) (val : α) :
    ∀ x ∈ (heapInsert h key val).data, x ∈ h.data ∨ x = (key, val) := by
  intro x hx
  unfold heapInsert at hx
  simp only at hx
  have hlen : 1 ≤ (h.data ++ [(key, val)]).length := by simp
  obtain ⟨hs1, hs2, hs3⟩ :=
    siftUp_subset ((h.data ++ [(key, val)]).length + 1) (h.data ++ [(key, val)])
      (h.data ++ [(key, val)]).length key hlen (le_refl _)
  rcases List.mem_or_eq_of_mem_set hx with hy | hy
  · have := hs1 x hy
    rcases List.mem_append.mp this with hz | hz
    · exact Or.inl hz
    · simp at hz; exact Or.inr hz
  · exact Or.inr hy



theorem getD_set {α : Type} (l : List α) (p q : Nat) (v d : α) :
    (l.set p v).getD q d = if p = q ∧ p < l.length then v else l.getD q d := by
  induction l generalizing p q with
  | nil => simp [List.getD]
  | cons a t ih =>
    cases p with
    | zero =>
      cases q with
      | zero => simp
      | succ r => simp [List.getD]
    | succ s =>
      cases q with
      | zero => simp [List.getD]
      | succ r =>
        simp only [List.set_cons_succ, List.getD_cons_succ, List.length_cons]
        rw [ih s r]
        by_cases h : s = r ∧ s < t.length
        · rw [if_pos h, if_pos ⟨by omega, by omega⟩]
        · rw [if_neg h, if_neg (by omega)]

theorem pmElt_pmSwap (p : Permutation) (i j q : Nat) :
    pmElt (pmSwap p i j) q =
      if j = q ∧ j < p.elements.length then pmElt p i
      else if i = q ∧ i < p.elements.length then pmElt p j
      else pmElt p q := by
  unfold pmSwap pmElt
  rw [getD_set, getD_set, List.length_set]

theorem pmSwap_length (p : Permutation) (i j : Nat) :
    (pmSwap p i j).elements.length = p.elements.length := by
  unfold pmSwap
  simp

theorem is_valid_iff (po : Po) (p : Permutation) (n : Nat) :
    is_valid_partial_perm po p n = true ↔
      ∀ a, a < pmLength p → ∀ j, a < j → j < n →
        poGet po (pmElt p a) (pmElt p j) ≠ PoRel.gt := by
  unfold is_valid_partial_perm
  simp only [List.all_eq_true, List.mem_range, List.mem_range'_1, decide_eq_true_eq]
  constructor
  · intro h a ha j hj1 hj2
    exact h a ha j ⟨by omega, by omega⟩
  · intro h a ha j hj
    exact h a ha j (by omega) (by omega)

theorem poIsMin_iff (po : Po) (u : Nat) :
    poIsMin po u = true ↔ ∀ v, v < po.dim → poGet po u v ≠ PoRel.gt := by
  unfold poIsMin
  simp only [List.all_eq_true, List.mem_range, decide_eq_true_eq]



/-- The length-1 candidate built by the INIT phase for minimal `i`. -/
theorem initCandidate_elts_lt (n i : Nat) (hi : i < n) :
    ∀ x ∈ (pmSetSize (pmSwap (pmIdentity (pmNew n)) 0 i) 1).elements, x < n := by
  intro x hx
  simp only [pmSetSize, pmSwap, pmIdentity, pmNew, pmElt] at hx
  rcases List.mem_or_eq_of_mem_set hx with hx2 | hx2
  · rcases List.mem_or_eq_of_mem_set hx2 with hx3 | hx3
    · exact List.mem_range.mp hx3
    · rw [hx3, List.getD_eq_getElem _ _ (by simpa using hi), List.getElem_range]
      exact hi
  · rw [hx2]
    have h0 : 0 < n := by omega
    rw [List.getD_eq_getElem _ _ (by simpa using h0), List.getElem_range]
    exact h0

theorem initCandidate_elt0 (n i : Nat) (hi : i < n) :
    pmElt (pmSetSize (pmSwap (pmIdentity (pmNew n)) 0 i) 1) 0 = i := by
  simp only [pmSetSize, pmSwap, pmIdentity, pmNew, pmElt]
  rw [getD_set, getD_set]
  have hr : (List.range n).getD i 0 = i := by
    rw [List.getD_eq_getElem _ _ (by simpa using hi), List.getElem_range]
  by_cases h : i = 0
  · subst h
    rw [if_pos ⟨rfl, by simpa using hi⟩]
    have h0 : (0 : Nat) < n := hi
    rw [List.getD_eq_getElem _ _ (by simpa using h0), List.getElem_range]
  · rw [if_neg (by simp [h]), if_pos ⟨rfl, by simp; omega⟩, hr]

theorem initCandidate_valid (po : Po) (n i : Nat) (hd : po.dim = n) (hi : i < n)
    (hm : poIsMin po i = true) :
    is_valid_partial_perm po (pmSetSize (pmSwap (pmIdentity (pmNew n)) 0 i) 1) n = true := by
  rw [is_valid_iff]
  intro a ha j hj1 hj2
  have ha0 : a = 0 := by
    simp only [pmLength, pmSetSize] at ha
    omega
  subst ha0
  rw [initCandidate_elt0 n i hi]
  have hjlt : pmElt (pmSetSize (pmSwap (pmIdentity (pmNew n)) 0 i) 1) j < n := by
    set p := pmSetSize (pmSwap (pmIdentity (pmNew n)) 0 i) 1 with hp
    have hlen : p.elements.length = n := by
      rw [hp]
      simp [pmSetSize, pmSwap, pmIdentity, pmNew]
    unfold pmElt
    apply initCandidate_elts_lt n i hi
    exact getD_mem p.elements j (by omega)
  exact (poIsMin_iff po i).mp hm _ (by omega)

theorem pmCopyAll_eq (dst src : Permutation) (hw1 : PermWf dst) (hw2 : PermWf src)
    (hc : dst.capacity = src.capacity) :
    pmCopyAll dst src = ⟨src.size, dst.capacity, src.elements⟩ := by
  unfold pmCopyAll
  unfold PermWf at hw1 hw2
  congr 1
  rw [List.take_of_length_le (by omega), List.drop_eq_nil_of_le (by omega), List.append_nil]

theorem pmDup_eq (p : Permutation) (hw : PermWf p) :
    pmDup p = ⟨p.size, p.capacity, p.elements⟩ := by
  unfold pmDup
  unfold PermWf at hw
  congr 1
  exact List.take_of_length_le (by omega)

theorem is_valid_mk_capacity (po : Po) (s c c2 : Nat) (el : List Nat) (n : Nat) :
    is_valid_partial_perm po ⟨s, c, el⟩ n = is_valid_partial_perm po ⟨s, c2, el⟩ n := rfl

theorem mvpInner_fields (po : Po) (n : Nat) :
    ∀ (fuel : Nat) (p : Permutation) (v1 i j : Nat),
      (mvpInner po n fuel p v1 i j).size = p.size ∧
      (mvpInner po n fuel p v1 i j).capacity = p.capacity ∧
      (mvpInner po n fuel p v1 i j).elements.length = p.elements.length := by
  intro fuel
  induction fuel with
  | zero => intro p v1 i j; exact ⟨rfl, rfl, rfl⟩
  | succ fuel ih =>
    intro p v1 i j
    rw [mvpInner]
    split
    · dsimp only
      split
      · obtain ⟨h1, h2, h3⟩ := ih (pmSwap p i j) (pmElt p j) i (j + 1)
        refine ⟨h1.trans rfl, h2.trans rfl, h3.trans ?_⟩
        exact pmSwap_length p i j
      · exact ih p v1 i (j + 1)
    · exact ⟨rfl, rfl, rfl⟩

theorem mvpOuter_fields (po : Po) (n : Nat) :
    ∀ (fuel : Nat) (p : Permutation) (i : Nat),
      (mvpOuter po n fuel p i).size = p.size ∧
      (mvpOuter po n fuel p i).capacity = p.capacity ∧
      (mvpOuter po n fuel p i).elements.length = p.elements.length := by
  intro fuel
  induction fuel with
  | zero => intro p i; exact ⟨rfl, rfl, rfl⟩
  | succ fuel ih =>
    intro p i
    rw [mvpOuter]
    split
    · obtain ⟨h1, h2, h3⟩ := ih (mvpInner po n (n + 1) p (pmElt p i) i (i + 1)) (i + 1)
      obtain ⟨g1, g2, g3⟩ := mvpInner_fields po n (n + 1) p (pmElt p i) i (i + 1)
      exact ⟨h1.trans g1, h2.trans g2, h3.trans g3⟩
    · exact ⟨rfl, rfl, rfl⟩

theorem make_valid_perm_fields (po : Po) (p : Permutation) (n : Nat) :
    (make_valid_perm po p n).size = p.size ∧
    (make_valid_perm po p n).capacity = p.capacity ∧
    (make_valid_perm po p n).elements.length = p.elements.length :=
  mvpOuter_fields po n (n + 1) p (pmLength p)



theorem pmSetSize_elements (p : Permutation) (n : Nat) : (pmSetSize p n).elements = p.elements := rfl

theorem pmSetSize_capacity (p : Permutation) (n : Nat) : (pmSetSize p n).capacity = p.capacity := rfl

theorem initCandidate_wf (n i : Nat) :
    PermWf (pmSetSize (pmSwap (pmIdentity (pmNew n)) 0 i) 1) ∧
    (pmSetSize (pmSwap (pmIdentity (pmNew n)) 0 i) 1).capacity = n := by
  constructor
  · unfold PermWf pmSetSize pmSwap pmIdentity pmNew
    simp
  · rfl

theorem bfInitLoop_inv (n : Nat) (po : Po) (evf : EvalFn) (hd : po.dim = n) :
    ∀ (fuel : Nat) (pq : Heap Permutation) (next : Permutation) (i : Nat),
      (∀ e ∈ pq.data, is_valid_partial_perm po e.2 n = true ∧ e.2.capacity = n ∧ PermWf e.2) →
      PermWf next → next.capacity = n →
      (∀ e ∈ (bfInitLoop n po evf fuel pq next i).pq.data,
          is_valid_partial_perm po e.2 n = true ∧ e.2.capacity = n ∧ PermWf e.2) ∧
      PermWf (bfInitLoop n po evf fuel pq next i).next ∧
      (bfInitLoop n po evf fuel pq next i).next.capacity = n := by
  intro fuel
  induction fuel with
  | zero => intro pq next i hpq hnw hnc; exact ⟨hpq, hnw, hnc⟩
  | succ fuel ih =>
    intro pq next i hpq hnw hnc
    rw [bfInitLoop]
    split
    · next hi =>
      split
      · next hmin =>
        dsimp only
        split
        · next herr =>
          obtain ⟨hw, hc⟩ := initCandidate_wf n i
          have hca : pmCopyAll next (pmSetSize (pmSwap (pmIdentity (pmNew n)) 0 i) 1) =
              ⟨(pmSetSize (pmSwap (pmIdentity (pmNew n)) 0 i) 1).size, next.capacity,
               (pmSetSize (pmSwap (pmIdentity (pmNew n)) 0 i) 1).elements⟩ :=
            pmCopyAll_eq _ _ hnw hw (hnc.trans hc.symm)
          refine ⟨hpq, ?_, ?_⟩
          · unfold PermWf
            rw [pmSetSize_elements, pmSetSize_capacity,
              (make_valid_perm_fields po _ n).2.2, (make_valid_perm_fields po _ n).2.1, hca]
            exact hw.trans (hc.trans hnc.symm)
          · rw [pmSetSize_capacity, (make_valid_perm_fields po _ n).2.1, hca]
            exact hnc
        · apply ih
          · intro e he
            rcases heapInsert_mem pq _ _ e he with hold | hnew
            · exact hpq e hold
            · rw [hnew]
              exact ⟨initCandidate_valid po n i hd hi hmin, (initCandidate_wf n i).2,
                (initCandidate_wf n i).1⟩
          · exact hnw
          · exact hnc
      · exact ih pq next (i + 1) hpq hnw hnc
    · exact ⟨hpq, hnw, hnc⟩



theorem bfExpandLoop_inv (n : Nat) (po : Po) (evf : EvalFn) (best : Permutation)
    (hbw : PermWf best) (hbc : best.capacity = n) :
    ∀ (fuel : Nat) (pq : Heap Permutation) (next : Permutation) (j : Nat),
      (∀ e ∈ pq.data, is_valid_partial_perm po e.2 n = true ∧ e.2.capacity = n ∧ PermWf e.2) →
      PermWf next → next.capacity = n →
      (∀ e ∈ (bfExpandLoop n po evf fuel best pq next j).pq.data,
          is_valid_partial_perm po e.2 n = true ∧ e.2.capacity = n ∧ PermWf e.2) ∧
      PermWf (bfExpandLoop n po evf fuel best pq next j).next ∧
      (bfExpandLoop n po evf fuel best pq next j).next.capacity = n := by
  intro fuel
  induction fuel with
  | zero => intro pq next j hpq hnw hnc; exact ⟨hpq, hnw, hnc⟩
  | succ fuel ih =>
    intro pq next j hpq hnw hnc
    rw [bfExpandLoop]
    split
    · next hj =>
      dsimp only
      have hca : pmCopyAll next best = ⟨best.size, next.capacity, best.elements⟩ :=
        pmCopyAll_eq _ _ hnw hbw (hnc.trans hbc.symm)
      have hn1w : PermWf (pmSetSize (pmSwap (pmCopyAll next best) (pmSize best) j)
          (pmSize best + 1)) := by
        unfold PermWf
        rw [pmSetSize_elements, pmSetSize_capacity, pmSwap_length]
        show (pmCopyAll next best).elements.length = (pmSwap (pmCopyAll next best) _ j).capacity
        rw [hca]
        exact hbw.trans (hbc.trans hnc.symm)
      have hn1c : (pmSetSize (pmSwap (pmCopyAll next best) (pmSize best) j)
          (pmSize best + 1)).capacity = n := by
        rw [pmSetSize_capacity]
        show (pmSwap (pmCopyAll next best) _ j).capacity = n
        rw [hca]
        exact hnc
      split
      · next hval =>
        split
        · next herr =>
          refine ⟨hpq, ?_, ?_⟩
          · unfold PermWf
            rw [pmSetSize_elements, pmSetSize_capacity,
              (make_valid_perm_fields po _ n).2.2, (make_valid_perm_fields po _ n).2.1]
            exact hn1w
          · rw [pmSetSize_capacity, (make_valid_perm_fields po _ n).2.1]
            exact hn1c
        · apply ih
          · intro e he
            rcases heapInsert_mem pq _ _ e he with hold | hnew
            · exact hpq e hold
            · rw [hnew]
              rw [pmDup_eq _ hn1w]
              exact ⟨hval, hn1c, hn1w⟩
          · exact hn1w
          · exact hn1c
      · exact ih pq _ (j + 1) hpq hn1w hn1c
    · exact ⟨hpq, hnw, hnc⟩

theorem set_self : ∀ (l : List Nat) (i : Nat), l.set i (l.getD i 0) = l := by
  intro l
  induction l with
  | nil => intro i; rfl
  | cons a t ih =>
    intro i
    cases i with
    | zero => rfl
    | succ s => simp only [List.getD_cons_succ, List.set_cons_succ, ih s]

theorem getD_cons_set_perm :
    ∀ (t : List Nat) (p : Nat) (a : Nat), p < t.length →
      List.Perm (t.getD p 0 :: t.set p a) (a :: t) := by
  intro t
  induction t with
  | nil => intro p a hp; simp at hp
  | cons b s ih =>
    intro p a hp
    cases p with
    | zero => exact List.Perm.swap a b s
    | succ q =>
      simp only [List.getD_cons_succ, List.set_cons_succ]
      exact (List.Perm.swap b (s.getD q 0) (s.set q a)).trans
        (((ih q a (by simpa using hp)).cons b).trans (List.Perm.swap a b s))

theorem swap_elems_perm_lt :
    ∀ (i : Nat) (l : List Nat) (j : Nat), i < j → j < l.length →
      List.Perm ((l.set i (l.getD j 0)).set j (l.getD i 0)) l := by
  intro i
  induction i with
  | zero =>
    intro l j hij hj
    cases l with
    | nil => simp at hj
    | cons a t =>
      cases j with
      | zero => omega
      | succ r =>
        simp only [List.getD_cons_succ, List.getD_cons_zero, List.set_cons_succ,
          List.set_cons_zero]
        exact getD_cons_set_perm t r a (by simpa using hj)
  | succ s ih =>
    intro l j hij hj
    cases l with
    | nil => simp at hj
    | cons a t =>
      cases j with
      | zero => omega
      | succ r =>
        simp only [List.getD_cons_succ, List.set_cons_succ]
        exact (ih t r (by omega) (by simpa using hj)).cons a

theorem swap_elems_perm (l : List Nat) (i j : Nat) (hi : i < l.length) (hj : j < l.length) :
    List.Perm ((l.set i (l.getD j 0)).set j (l.getD i 0)) l := by
  rcases Nat.lt_trichotomy i j with h | h | h
  · exact swap_elems_perm_lt i l j h hj
  · subst h
    rw [set_self, set_self]
  · rw [List.set_comm _ _ _ (by omega)]
    exact swap_elems_perm_lt j l i h hi

theorem pmSwap_perm (p : Permutation) (i j : Nat) (hi : i < p.elements.length)
    (hj : j < p.elements.length) :
    List.Perm (pmSwap p i j).elements p.elements := by
  unfold pmSwap pmElt
  exact swap_elems_perm p.elements i j hi hj



theorem settled_swap (po : Po) (p : Permutation) (n i i0 j0 : Nat)
    (_hlen : p.elements.length = n)
    (hs : SettledBelow po p n i) (h1 : i ≤ i0) (h2 : i0 < j0) (h3 : j0 < n) :
    SettledBelow po (pmSwap p i0 j0) n i := by
  intro a ha b hab hbn
  have hea : pmElt (pmSwap p i0 j0) a = pmElt p a := by
    rw [pmElt_pmSwap]
    rw [if_neg (by omega), if_neg (by omega)]
  rw [hea]
  rw [pmElt_pmSwap]
  by_cases hbj : j0 = b ∧ j0 < p.elements.length
  · rw [if_pos hbj]
    exact hs a ha i0 (by omega) (by omega)
  · rw [if_neg hbj]
    by_cases hbi : i0 = b ∧ i0 < p.elements.length
    · rw [if_pos hbi]
      exact hs a ha j0 (by omega) (by omega)
    · rw [if_neg hbi]
      exact hs a ha b hab hbn

theorem mvpInner_correct (po : Po) (n : Nat) (hd : po.dim = n) (hm : mirrorOk po)
    (ht : gtTrans po) :
    ∀ (fuel : Nat) (p : Permutation) (v1 i j : Nat),
      p.elements.length = n → (∀ x ∈ p.elements, x < n) →
      v1 = pmElt p i → i < j → i < n →
      (∀ b, i < b → b < j → poGet po (pmElt p i) (pmElt p b) ≠ PoRel.gt) →
      SettledBelow po p n i →
      n - j + 1 ≤ fuel →
      SettledBelow po (mvpInner po n fuel p v1 i j) n (i + 1) ∧
      List.Perm (mvpInner po n fuel p v1 i j).elements p.elements := by
  intro fuel
  induction fuel with
  | zero => intro p v1 i j _ _ _ _ _ _ _ hfuel; omega
  | succ fuel ih =>
    intro p v1 i j hlen helts hv1 hij hin hInv hset hfuel
    rw [mvpInner]
    split
    · next hj =>
      dsimp only
      split
      · next hgt =>
        have hjlen : j < p.elements.length := by omega
        have hilen : i < p.elements.length := by omega
        have hv1lt : v1 < n := by
          rw [hv1]
          exact helts _ (getD_mem p.elements i hilen)
        have hv2lt : pmElt p j < n := helts _ (getD_mem p.elements j hjlen)
        have heltswap : pmElt p j = pmElt (pmSwap p i j) i := by
          rw [pmElt_pmSwap]
          rw [if_neg (by omega), if_pos ⟨rfl, hilen⟩]
        obtain ⟨hset2, hperm2⟩ := ih (pmSwap p i j) (pmElt p j) i (j + 1)
          (by rw [pmSwap_length]; exact hlen)
          (fun x hx => helts x ((pmSwap_perm p i j hilen hjlen).mem_iff.mp hx))
          heltswap (by omega) hin
          (by
            intro b hb1 hb2
            rw [← heltswap]
            rw [pmElt_pmSwap]
            by_cases hbj : j = b ∧ j < p.elements.length
            · rw [if_pos hbj]
              rw [← hv1]
              have := hm v1 (by omega) (pmElt p j) (by omega)
              rw [hgt] at this
              rw [this]
              simp [poInverse]
            · rw [if_neg hbj]
              by_cases hbi : i = b ∧ i < p.elements.length
              · omega
              · rw [if_neg hbi]
                have hblt : b < j := by omega
                have hpb : pmElt p b < n := helts _ (getD_mem p.elements b (by omega))
                intro hc
                have := ht v1 (by omega) (pmElt p j) (by omega) (pmElt p b) (by omega)
                  (by rw [hv1] at hgt ⊢; exact hgt) hc
                exact hInv b hb1 hblt (by rw [← hv1]; exact this))
          (settled_swap po p n i i j hlen hset (le_refl i) hij (by omega))
          (by omega)
        exact ⟨hset2, hperm2.trans (pmSwap_perm p i j hilen hjlen)⟩
      · next hgt =>
        apply ih p v1 i (j + 1) hlen helts hv1 (by omega) hin
        · intro b hb1 hb2
          by_cases hbj : b = j
          · subst hbj
            rw [← hv1]
            exact hgt
          · exact hInv b hb1 (by omega)
        · exact hset
        · omega
    · next hj =>
      refine ⟨?_, List.Perm.refl _⟩
      intro a ha
      by_cases hai : a < i
      · exact hset a hai
      · have : a = i := by omega
        subst this
        intro b hb1 hb2
        exact hInv b hb1 (by omega)



theorem mvpOuter_correct (po : Po) (n : Nat) (hd : po.dim = n) (hm : mirrorOk po)
    (ht : gtTrans po) :
    ∀ (fuel : Nat) (p : Permutation) (i : Nat),
      p.elements.length = n → (∀ x ∈ p.elements, x < n) →
      SettledBelow po p n i →
      n - i + 1 ≤ fuel →
      SettledBelow po (mvpOuter po n fuel p i) n n ∧
      List.Perm (mvpOuter po n fuel p i).elements p.elements := by
  intro fuel
  induction fuel with
  | zero => intro p i _ _ _ hfuel; omega
  | succ fuel ih =>
    intro p i hlen helts hset hfuel
    rw [mvpOuter]
    split
    · next hi =>
      obtain ⟨hs1, hp1⟩ := mvpInner_correct po n hd hm ht (n + 1) p (pmElt p i) i (i + 1)
        hlen helts rfl (by omega) hi (by omega) hset (by omega)
      obtain ⟨hs2, hp2⟩ := ih (mvpInner po n (n + 1) p (pmElt p i) i (i + 1)) (i + 1)
        (hp1.length_eq.trans hlen) (fun x hx => helts x (hp1.mem_iff.mp hx)) hs1 (by omega)
      exact ⟨hs2, hp2.trans hp1⟩
    · next hi =>
      refine ⟨?_, List.Perm.refl _⟩
      intro a ha
      exact hset a (by omega)

theorem make_valid_perm_correct (po : Po) (n : Nat) (hd : po.dim = n) (hm : mirrorOk po)
    (ht : gtTrans po) (p : Permutation)
    (hlen : p.elements.length = n) (helts : ∀ x ∈ p.elements, x < n)
    (hval : is_valid_partial_perm po p n = true) :
    is_valid_partial_perm po (pmSetSize (make_valid_perm po p n) n) n = true ∧
    List.Perm (pmSetSize (make_valid_perm po p n) n).elements p.elements ∧
    pmLength (pmSetSize (make_valid_perm po p n) n) = n := by
  have hset : SettledBelow po p n (pmLength p) := by
    intro a ha b hb1 hb2
    exact (is_valid_iff po p n).mp hval a ha b hb1 hb2
  obtain ⟨hs, hp⟩ := mvpOuter_correct po n hd hm ht (n + 1) p (pmLength p)
    hlen helts hset (by omega)
  refine ⟨?_, hp, rfl⟩
  rw [is_valid_iff]
  intro a ha b hb1 hb2
  have ha2 : a < n := by
    simp only [pmLength, pmSetSize] at ha
    omega
  exact hs a ha2 b hb1 hb2



theorem initCandidate_perm (n i : Nat) (hi : i < n) :
    List.Perm (pmSetSize (pmSwap (pmIdentity (pmNew n)) 0 i) 1).elements (List.range n) := by
  have h0 : (0 : Nat) < n := by omega
  have hlen : (pmIdentity (pmNew n)).elements.length = n := by
    simp [pmIdentity, pmNew]
  have := pmSwap_perm (pmIdentity (pmNew n)) 0 i (by omega) (by omega)
  simp only [pmSetSize]
  exact this.trans (by simp [pmIdentity, pmNew])

theorem bfInitLoop_nodata (n : Nat) (po : Po) (evf : EvalFn) (hd : po.dim = n)
    (hm : mirrorOk po) (ht : gtTrans po) :
    ∀ (fuel : Nat) (pq : Heap Permutation) (next : Permutation) (i : Nat),
      PermWf next → next.capacity = n →
      ∀ er, (bfInitLoop n po evf fuel pq next i).early = some er →
      er = RC_ERR_NODATA ∧
      pmLength (bfInitLoop n po evf fuel pq next i).next = n ∧
      List.Perm (bfInitLoop n po evf fuel pq next i).next.elements (List.range n) ∧
      is_valid_partial_perm po (bfInitLoop n po evf fuel pq next i).next n = true := by
  intro fuel
  induction fuel with
  | zero =>
    intro pq next i _ _ er her
    simp [bfInitLoop] at her
  | succ fuel ih =>
    intro pq next i hnw hnc er her
    by_cases hi : i < n
    · by_cases hmin : poIsMin po i = true
      · by_cases herr : (evf (pmSetSize (pmSwap (pmIdentity (pmNew n)) 0 i) 1)).1 ≠ 0
        · have hre : bfInitLoop n po evf (fuel + 1) pq next i =
              ⟨some RC_ERR_NODATA, pq,
               pmSetSize (make_valid_perm po
                 (pmCopyAll next (pmSetSize (pmSwap (pmIdentity (pmNew n)) 0 i) 1)) n) n, i⟩ := by
            rw [bfInitLoop]
            rw [if_pos hi, if_pos hmin]
            dsimp only
            rw [if_pos herr]
          rw [hre] at her ⊢
          obtain ⟨hw, hc⟩ := initCandidate_wf n i
          have hca : pmCopyAll next (pmSetSize (pmSwap (pmIdentity (pmNew n)) 0 i) 1) =
              ⟨(pmSetSize (pmSwap (pmIdentity (pmNew n)) 0 i) 1).size, next.capacity,
               (pmSetSize (pmSwap (pmIdentity (pmNew n)) 0 i) 1).elements⟩ :=
            pmCopyAll_eq _ _ hnw hw (hnc.trans hc.symm)
          have hqlen : (pmCopyAll next
              (pmSetSize (pmSwap (pmIdentity (pmNew n)) 0 i) 1)).elements.length = n := by
            rw [hca]
            exact hw.trans hc
          have hqelts : ∀ x ∈ (pmCopyAll next
              (pmSetSize (pmSwap (pmIdentity (pmNew n)) 0 i) 1)).elements, x < n := by
            rw [hca]
            exact initCandidate_elts_lt n i hi
          have hqval : is_valid_partial_perm po
              (pmCopyAll next (pmSetSize (pmSwap (pmIdentity (pmNew n)) 0 i) 1)) n = true := by
            rw [hca, is_valid_mk_capacity po _ next.capacity
              (pmSetSize (pmSwap (pmIdentity (pmNew n)) 0 i) 1).capacity _ n]
            exact initCandidate_valid po n i hd hi hmin
          obtain ⟨hv2, hp2, hl2⟩ := make_valid_perm_correct po n hd hm ht _ hqlen hqelts hqval
          refine ⟨(Option.some.inj her).symm, hl2, ?_, hv2⟩
          refine hp2.trans ?_
          rw [hca]
          exact initCandidate_perm n i hi
        · have hre : bfInitLoop n po evf (fuel + 1) pq next i =
              bfInitLoop n po evf fuel
                (heapInsert pq (evf (pmSetSize (pmSwap (pmIdentity (pmNew n)) 0 i) 1)).2
                  (pmSetSize (pmSwap (pmIdentity (pmNew n)) 0 i) 1)) next (i + 1) := by
            rw [bfInitLoop]
            rw [if_pos hi, if_pos hmin]
            dsimp only
            rw [if_neg herr]
          rw [hre] at her ⊢
          exact ih _ next (i + 1) hnw hnc er her
      · have hre : bfInitLoop n po evf (fuel + 1) pq next i =
            bfInitLoop n po evf fuel pq next (i + 1) := by
          rw [bfInitLoop]
          rw [if_pos hi, if_neg hmin]
        rw [hre] at her ⊢
        exact ih pq next (i + 1) hnw hnc er her
    · have hre : bfInitLoop n po evf (fuel + 1) pq next i = ⟨none, pq, next, i⟩ := by
        rw [bfInitLoop]
        rw [if_neg hi]
      rw [hre] at her
      simp at her



theorem bfExpandLoop_nodata (n : Nat) (po : Po) (evf : EvalFn) (best : Permutation)
    (hd : po.dim = n) (hm : mirrorOk po) (ht : gtTrans po)
    (hbw : PermWf best) (hbc : best.capacity = n)
    (hbp : List.Perm best.elements (List.range n)) (hbs : pmSize best < n) :
    ∀ (fuel : Nat) (pq : Heap Permutation) (next : Permutation) (j : Nat),
      PermWf next → next.capacity = n →
      ∀ er, (bfExpandLoop n po evf fuel best pq next j).early = some er →
      er = RC_ERR_NODATA ∧
      pmLength (bfExpandLoop n po evf fuel best pq next j).next = n ∧
      List.Perm (bfExpandLoop n po evf fuel best pq next j).next.elements (List.range n) ∧
      is_valid_partial_perm po (bfExpandLoop n po evf fuel best pq next j).next n = true := by
  intro fuel
  induction fuel with
  | zero =>
    intro pq next j _ _ er her
    simp [bfExpandLoop] at her
  | succ fuel ih =>
    intro pq next j hnw hnc er her
    by_cases hj : j < n
    · have hca : pmCopyAll next best = ⟨best.size, next.capacity, best.elements⟩ :=
        pmCopyAll_eq _ _ hnw hbw (hnc.trans hbc.symm)
      have hblen : best.elements.length = n := hbw.trans hbc
      have hn1p : List.Perm (pmSetSize (pmSwap (pmCopyAll next best) (pmSize best) j)
          (pmSize best + 1)).elements (List.range n) := by
        simp only [pmSetSize]
        refine (pmSwap_perm (pmCopyAll next best) (pmSize best) j ?_ ?_).trans ?_
        · rw [hca]; simpa [hblen] using hbs
        · rw [hca]; simpa [hblen] using hj
        · rw [hca]; exact hbp
      have hn1len : (pmSetSize (pmSwap (pmCopyAll next best) (pmSize best) j)
          (pmSize best + 1)).elements.length = n := by
        rw [hn1p.length_eq]
        simp
      have hn1w : PermWf (pmSetSize (pmSwap (pmCopyAll next best) (pmSize best) j)
          (pmSize best + 1)) := by
        unfold PermWf
        rw [hn1len, pmSetSize_capacity]
        show _ = (pmSwap (pmCopyAll next best) _ j).capacity
        rw [hca]
        exact hnc.symm
      have hn1c : (pmSetSize (pmSwap (pmCopyAll next best) (pmSize best) j)
          (pmSize best + 1)).capacity = n := by
        rw [pmSetSize_capacity]
        show (pmSwap (pmCopyAll next best) _ j).capacity = n
        rw [hca]
        exact hnc
      by_cases hval : is_valid_partial_perm po
          (pmSetSize (pmSwap (pmCopyAll next best) (pmSize best) j) (pmSize best + 1)) n = true
      · by_cases herr : (evf (pmSetSize (pmSwap (pmCopyAll next best) (pmSize best) j)
            (pmSize best + 1))).1 ≠ 0
        · have hre : bfExpandLoop n po evf (fuel + 1) best pq next j =
              ⟨some RC_ERR_NODATA, pq,
               pmSetSize (make_valid_perm po
                 (pmSetSize (pmSwap (pmCopyAll next best) (pmSize best) j) (pmSize best + 1)) n)
                 n, j⟩ := by
            rw [bfExpandLoop]
            rw [if_pos hj]
            dsimp only
            rw [if_pos hval, if_pos herr]
          rw [hre] at her ⊢
          have helts : ∀ x ∈ (pmSetSize (pmSwap (pmCopyAll next best) (pmSize best) j)
              (pmSize best + 1)).elements, x < n := by
            intro x hx
            have := hn1p.mem_iff.mp hx
            simpa using this
          obtain ⟨hv2, hp2, hl2⟩ := make_valid_perm_correct po n hd hm ht _ hn1len helts hval
          exact ⟨(Option.some.inj her).symm, hl2, hp2.trans hn1p, hv2⟩
        · have hre : bfExpandLoop n po evf (fuel + 1) best pq next j =
              bfExpandLoop n po evf fuel best
                (heapInsert pq (evf (pmSetSize (pmSwap (pmCopyAll next best) (pmSize best) j)
                  (pmSize best + 1))).2
                  (pmDup (pmSetSize (pmSwap (pmCopyAll next best) (pmSize best) j)
                    (pmSize best + 1))))
                (pmSetSize (pmSwap (pmCopyAll next best) (pmSize best) j) (pmSize best + 1))
                (j + 1) := by
            rw [bfExpandLoop]
            rw [if_pos hj]
            dsimp only
            rw [if_pos hval, if_neg herr]
          rw [hre] at her ⊢
          exact ih _ _ (j + 1) hn1w hn1c er her
      · have hre : bfExpandLoop n po evf (fuel + 1) best pq next j =
            bfExpandLoop n po evf fuel best pq
              (pmSetSize (pmSwap (pmCopyAll next best) (pmSize best) j) (pmSize best + 1))
              (j + 1) := by
          rw [bfExpandLoop]
          rw [if_pos hj]
          dsimp only
          rw [if_neg hval]
        rw [hre] at her ⊢
        exact ih _ _ (j + 1) hn1w hn1c er her
    · have hre : bfExpandLoop n po evf (fuel + 1) best pq next j = ⟨none, pq, next, j⟩ := by
        rw [bfExpandLoop]
        rw [if_neg hj]
      rw [hre] at her
      simp at her

/-! ### Closure machinery lemmas -/
theorem vChain_bounds (po : Po) (v : PoRel) :
    ∀ (l : List Nat) (u w : Nat), vChain po v u l w = true →
      u < po.dim ∧ w < po.dim ∧ ∀ x ∈ l, x < po.dim := by
  intro l
  induction l with
  | nil =>
    intro u w h
    simp only [vChain, Bool.and_eq_true, decide_eq_true_eq] at h
    exact ⟨h.1.1, h.1.2, by simp⟩
  | cons m t ih =>
    intro u w h
    simp only [vChain, Bool.and_eq_true, decide_eq_true_eq] at h
    obtain ⟨⟨hu, _⟩, hc⟩ := h
    obtain ⟨hm, hw, hrest⟩ := ih m w hc
    refine ⟨hu, hw, ?_⟩
    intro x hx
    rcases List.mem_cons.mp hx with hx | hx
    · rw [hx]; exact hm
    · exact hrest x hx

theorem vChain_append (po : Po) (v : PoRel) :
    ∀ (l1 : List Nat) (u m : Nat) (l2 : List Nat) (w : Nat),
      vChain po v u (l1 ++ m :: l2) w = true ↔
      (vChain po v u l1 m = true ∧ vChain po v m l2 w = true) := by
  intro l1
  induction l1 with
  | nil =>
    intro u m l2 w
    simp only [List.nil_append, vChain, Bool.and_eq_true, decide_eq_true_eq]
    constructor
    · intro ⟨⟨hu, hum⟩, hc⟩
      obtain ⟨hm, hw, _⟩ := vChain_bounds po v l2 m w hc
      exact ⟨⟨⟨hu, hm⟩, hum⟩, hc⟩
    · intro ⟨⟨⟨hu, _⟩, hum⟩, hc⟩
      exact ⟨⟨hu, hum⟩, hc⟩
  | cons x t ih =>
    intro u m l2 w
    simp only [List.cons_append, vChain, Bool.and_eq_true, decide_eq_true_eq]
    constructor
    · intro ⟨⟨hu, hux⟩, hc⟩
      obtain ⟨h1, h2⟩ := (ih x m l2 w).mp hc
      exact ⟨⟨⟨hu, hux⟩, h1⟩, h2⟩
    · intro ⟨⟨⟨hu, hux⟩, h1⟩, h2⟩
      exact ⟨⟨hu, hux⟩, (ih x m l2 w).mpr ⟨h1, h2⟩⟩

theorem NReach_concat (po : Po) (v : PoRel) (u m w : Nat) :
    NReach po v u m → NReach po v m w → NReach po v u w := by
  intro ⟨l1, h1⟩ ⟨l2, h2⟩
  exact ⟨l1 ++ m :: l2, (vChain_append po v l1 u m l2 w).mpr ⟨h1, h2⟩⟩

theorem poInverse_invol (v : PoRel) : poInverse (poInverse v) = v := by
  cases v <;> rfl

theorem poInverse_ne_inc (v : PoRel) (h : v ≠ PoRel.inc) : poInverse v ≠ PoRel.inc := by
  cases v <;> simp_all [poInverse]

theorem vChain_reverse (po : Po) (hm : mirrorOk po) (v : PoRel) :
    ∀ (l : List Nat) (u w : Nat), vChain po v u l w = true →
      vChain po (poInverse v) w l.reverse u = true := by
  intro l
  induction l with
  | nil =>
    intro u w h
    simp only [vChain, Bool.and_eq_true, decide_eq_true_eq] at h ⊢
    obtain ⟨⟨hu, hw⟩, he⟩ := h
    refine ⟨⟨hw, hu⟩, ?_⟩
    rw [hm u hu w hw, he]
  | cons m t ih =>
    intro u w h
    simp only [vChain, Bool.and_eq_true, decide_eq_true_eq] at h
    obtain ⟨⟨hu, hum⟩, hc⟩ := h
    obtain ⟨hmlt, hwlt, _⟩ := vChain_bounds po v t m w hc
    have hrev : vChain po (poInverse v) w t.reverse m = true := ih m w hc
    simp only [List.reverse_cons]
    rw [show t.reverse ++ [m] = t.reverse ++ m :: [] from rfl]
    rw [vChain_append]
    refine ⟨hrev, ?_⟩
    simp only [vChain, Bool.and_eq_true, decide_eq_true_eq]
    refine ⟨⟨hmlt, hu⟩, ?_⟩
    rw [hm u hu m hmlt, hum]



theorem not_nodup_decomp :
    ∀ (l : List Nat), ¬ l.Nodup → ∃ (a : Nat) (l1 l2 l3 : List Nat),
      l = l1 ++ a :: (l2 ++ a :: l3) := by
  intro l
  induction l with
  | nil => intro h; exact absurd List.nodup_nil h
  | cons x t ih =>
    intro h
    rw [List.nodup_cons] at h
    push_neg at h
    by_cases hx : x ∈ t
    · obtain ⟨s, r, hsr⟩ := List.append_of_mem hx
      exact ⟨x, [], s, r, by rw [hsr]; simp⟩
    · obtain ⟨a, l1, l2, l3, hd⟩ := ih (h hx)
      exact ⟨a, x :: l1, l2, l3, by rw [hd]; simp⟩

theorem chain_shorten (po : Po) (v : PoRel) :
    ∀ (len : Nat) (l : List Nat) (u w : Nat), l.length ≤ len →
      vChain po v u l w = true →
      ∃ l2, vChain po v u l2 w = true ∧ l2.Nodup ∧ l2.length ≤ l.length := by
  intro len
  induction len with
  | zero =>
    intro l u w hl hc
    have : l = [] := List.eq_nil_of_length_eq_zero (by omega)
    subst this
    exact ⟨[], hc, List.nodup_nil, le_refl _⟩
  | succ len ih =>
    intro l u w hl hc
    by_cases hnd : l.Nodup
    · exact ⟨l, hc, hnd, le_refl _⟩
    · obtain ⟨a, l1, l2, l3, hd⟩ := not_nodup_decomp l hnd
      subst hd
      obtain ⟨h1, h23⟩ := (vChain_append po v l1 u a (l2 ++ a :: l3) w).mp hc
      obtain ⟨h2, h3⟩ := (vChain_append po v l2 a a l3 w).mp h23
      have hcut : vChain po v u (l1 ++ a :: l3) w = true :=
        (vChain_append po v l1 u a l3 w).mpr ⟨h1, h3⟩
      have hlen : (l1 ++ a :: l3).length ≤ len := by
        simp only [List.length_append, List.length_cons] at hl ⊢
        omega
      obtain ⟨l4, hc4, hnd4, hl4⟩ := ih (l1 ++ a :: l3) u w hlen hcut
      refine ⟨l4, hc4, hnd4, ?_⟩
      simp only [List.length_append, List.length_cons] at hl4 ⊢
      omega

theorem listsLE_complete (n : Nat) :
    ∀ (k : Nat) (l : List Nat), (∀ x ∈ l, x < n) → l.length ≤ k → l ∈ listsLE n k := by
  intro k
  induction k with
  | zero =>
    intro l _ hl
    have : l = [] := List.eq_nil_of_length_eq_zero (by omega)
    subst this
    simp [listsLE]
  | succ k ih =>
    intro l hx hl
    cases l with
    | nil => simp [listsLE]
    | cons a t =>
      have ha : a < n := hx a (by simp)
      have ht : t ∈ listsLE n k := ih t (fun x hxt => hx x (by simp [hxt])) (by simpa using hl)
      simp only [listsLE, List.mem_cons, List.mem_flatMap, List.mem_map, List.mem_range]
      exact Or.inr ⟨a, ha, t, ht, rfl⟩

theorem consBnd_to_po (po : Po) (h : ConsistentBnd po) : ConsistentPo po := by
  intro v1 v2 u w hv1 hv2 ⟨l1, hc1⟩ ⟨l2, hc2⟩
  obtain ⟨hu, hw, _⟩ := vChain_bounds po v1 l1 u w hc1
  have hv1m : v1 ∈ [PoRel.lt, PoRel.eq, PoRel.gt] := by cases v1 <;> simp_all
  have hv2m : v2 ∈ [PoRel.lt, PoRel.eq, PoRel.gt] := by cases v2 <;> simp_all
  obtain ⟨l1s, hc1s, hnd1, _⟩ := chain_shorten po v1 l1.length l1 u w (le_refl _) hc1
  obtain ⟨l2s, hc2s, hnd2, _⟩ := chain_shorten po v2 l2.length l2 u w (le_refl _) hc2
  obtain ⟨_, _, hb1⟩ := vChain_bounds po v1 l1s u w hc1s
  obtain ⟨_, _, hb2⟩ := vChain_bounds po v2 l2s u w hc2s
  have hm1 : l1s ∈ listsLE po.dim po.dim := by
    apply listsLE_complete po.dim po.dim l1s hb1
    have : l1s ⊆ List.range po.dim := fun x hx => List.mem_range.mpr (hb1 x hx)
    have := (List.Nodup.subperm hnd1 this).length_le
    simpa using this
  have hm2 : l2s ∈ listsLE po.dim po.dim := by
    apply listsLE_complete po.dim po.dim l2s hb2
    have : l2s ⊆ List.range po.dim := fun x hx => List.mem_range.mpr (hb2 x hx)
    have := (List.Nodup.subperm hnd2 this).length_le
    simpa using this
  exact h v1 hv1m v2 hv2m u (List.mem_range.mpr hu) w (List.mem_range.mpr hw)
    ⟨l1s, hm1, hc1s⟩ ⟨l2s, hm2, hc2s⟩



theorem encode_lt (d u v : Nat) (hu : u < d) (hv : v < d) : u * d + v < d * d := by
  have h1 : u * d + v < (u + 1) * d := by
    simp only [Nat.add_mul, Nat.one_mul]
    omega
  have h2 : (u + 1) * d ≤ d * d := by
    have : u + 1 ≤ d := hu
    exact Nat.mul_le_mul_right d this
  omega

theorem encode_inj (d u v a b : Nat) (hv : v < d) (hb : b < d)
    (h : u * d + v = a * d + b) : u = a ∧ v = b := by
  have hd : 0 < d := by omega
  have h1 : (u * d + v) / d = u := by
    rw [Nat.mul_comm u d, Nat.mul_add_div hd, Nat.div_eq_of_lt hv]
    omega
  have h2 : (a * d + b) / d = a := by
    rw [Nat.mul_comm a d, Nat.mul_add_div hd, Nat.div_eq_of_lt hb]
    omega
  have h3 : (u * d + v) % d = v := by
    rw [Nat.mul_comm u d, Nat.mul_add_mod, Nat.mod_eq_of_lt hv]
  have h4 : (a * d + b) % d = b := by
    rw [Nat.mul_comm a d, Nat.mul_add_mod, Nat.mod_eq_of_lt hb]
  constructor
  · rw [← h1, ← h2, h]
  · rw [← h3, ← h4, h]

theorem poGet_setOrder (po : Po) (hwf : WfPo po) (u v : Nat) (rel : PoRel) (a b : Nat)
    (hu : u < po.dim) (hv : v < po.dim) (_ha : a < po.dim) (hb : b < po.dim) :
    poGet (poSetOrder po u v rel) a b =
      if a = v ∧ b = u then poInverse rel
      else if a = u ∧ b = v then rel
      else poGet po a b := by
  unfold poGet poSetOrder
  simp only
  rw [getD_set, getD_set, List.length_set]
  unfold WfPo at hwf
  have e1 : (v * po.dim + u = a * po.dim + b) ↔ (a = v ∧ b = u) := by
    constructor
    · intro h
      obtain ⟨h1, h2⟩ := encode_inj po.dim v u a b hu hb h
      exact ⟨h1.symm, h2.symm⟩
    · intro ⟨h1, h2⟩
      rw [h1, h2]
  have e2 : (u * po.dim + v = a * po.dim + b) ↔ (a = u ∧ b = v) := by
    constructor
    · intro h
      obtain ⟨h1, h2⟩ := encode_inj po.dim u v a b hv hb h
      exact ⟨h1.symm, h2.symm⟩
    · intro ⟨h1, h2⟩
      rw [h1, h2]
  by_cases c1 : a = v ∧ b = u
  · rw [if_pos ⟨e1.mpr c1, by rw [hwf]; exact encode_lt po.dim v u hv hu⟩, if_pos c1]
  · rw [if_neg (fun hh => c1 (e1.mp hh.1)), if_neg c1]
    by_cases c2 : a = u ∧ b = v
    · rw [if_pos ⟨e2.mpr c2, by rw [hwf]; exact encode_lt po.dim u v hu hv⟩, if_pos c2]
    · rw [if_neg (fun hh => c2 (e2.mp hh.1)), if_neg c2]

theorem set_getD_self {α : Type} : ∀ (l : List α) (d : α) (p : Nat),
    l.set p (l.getD p d) = l := by
  intro l d
  induction l with
  | nil => intro p; rfl
  | cons a t ih =>
    intro p
    cases p with
    | zero => rfl
    | succ q => simp only [List.getD_cons_succ, List.set_cons_succ, ih q]

theorem poSetOrder_of_same (po : Po) (i j : Nat) (h1 : poGet po i j = PoRel.inc)
    (h2 : poGet po j i = PoRel.inc) : poSetOrder po i j PoRel.inc = po := by
  unfold poGet at h1 h2
  have e1 : po.data.set (i * po.dim + j) PoRel.inc = po.data := by
    conv_lhs => rw [← h1]
    exact set_getD_self po.data PoRel.inc (i * po.dim + j)
  have e2 : po.data.set (j * po.dim + i) PoRel.inc = po.data := by
    conv_lhs => rw [← h2]
    exact set_getD_self po.data PoRel.inc (j * po.dim + i)
  unfold poSetOrder
  rw [show poInverse PoRel.inc = PoRel.inc from rfl, e1, e2]



theorem poClosureStep_dim (k i j : Nat) (po : Po) : (poClosureStep k i j po).dim = po.dim := by
  unfold poClosureStep
  split
  · split
    · rfl
    · rfl
  · rfl

theorem step_stable (po : Po) (hwf : WfPo po) (hm : mirrorOk po) (k i j a b : Nat)
    (_hk : k < po.dim) (hi : i < po.dim) (hj : j < po.dim)
    (ha : a < po.dim) (hb : b < po.dim)
    (hne : poGet po a b ≠ PoRel.inc) :
    poGet (poClosureStep k i j po) a b = poGet po a b := by
  unfold poClosureStep
  split
  · next hinc =>
    split
    · next heq =>
      unfold poIncomparable at hinc
      simp only [decide_eq_true_eq] at hinc
      rw [poGet_setOrder po hwf i j _ a b hi hj ha hb]
      by_cases c1 : a = j ∧ b = i
      · exfalso
        apply hne
        rw [c1.1, c1.2, hm i hi j hj, hinc]
        rfl
      · rw [if_neg c1]
        by_cases c2 : a = i ∧ b = j
        · exfalso
          apply hne
          rw [c2.1, c2.2, hinc]
        · rw [if_neg c2]
    · rfl
  · rfl

theorem stepInv (M0 po : Po) (hm0 : mirrorOk M0) (hinv : ClosInv M0 po) (k i j : Nat)
    (hk : k < po.dim) (hi : i < po.dim) (hj : j < po.dim) :
    ClosInv M0 (poClosureStep k i j po) := by
  obtain ⟨hdim, hwf, hmir, hsound⟩ := hinv
  unfold poClosureStep
  split
  · next hinc =>
    split
    · next heq =>
      unfold poIncomparable at hinc
      simp only [decide_eq_true_eq] at hinc
      have hwf2 : WfPo (poSetOrder po i j (poGet po i k)) := by
        unfold WfPo at hwf ⊢
        simp [poSetOrder, hwf]
      refine ⟨hdim, hwf2, ?_, ?_⟩
      · -- mirror invariant is preserved
        intro a ha b hb
        have ha2 : a < po.dim := ha
        have hb2 : b < po.dim := hb
        rw [poGet_setOrder po hwf i j _ b a hi hj hb2 ha2,
            poGet_setOrder po hwf i j _ a b hi hj ha2 hb2]
        by_cases cB : b = j ∧ a = i
        · rw [if_pos cB]
          by_cases cA : a = j ∧ b = i
          · rw [if_pos cA]
            have hij : i = j := by omega
            subst hij
            have hv : poGet po i k = poInverse (poGet po i k) := heq.trans (hmir i hi k hk)
            rw [poInverse_invol]
            exact hv.symm
          · rw [if_neg cA, if_pos ⟨cB.2, cB.1⟩]
        · rw [if_neg cB]
          by_cases cA : a = j ∧ b = i
          · rw [if_pos ⟨cA.2, cA.1⟩, if_pos cA, poInverse_invol]
          · rw [if_neg (fun hh => cA ⟨hh.2, hh.1⟩), if_neg cA,
              if_neg (fun hh => cB ⟨hh.2, hh.1⟩)]
            exact hmir a ha2 b hb2
      · -- soundness is preserved
        intro a b ha hb v hv hval
        have ha2 : a < po.dim := ha
        have hb2 : b < po.dim := hb
        rw [poGet_setOrder po hwf i j _ a b hi hj ha2 hb2] at hval
        by_cases czero : poGet po i k = PoRel.inc
        · rw [czero] at hval
          by_cases c1 : a = j ∧ b = i
          · rw [if_pos c1] at hval
            simp only [poInverse] at hval
            exact absurd hval.symm hv
          · rw [if_neg c1] at hval
            by_cases c2 : a = i ∧ b = j
            · rw [if_pos c2] at hval
              exact absurd hval.symm hv
            · rw [if_neg c2] at hval
              exact hsound a b ha2 hb2 v hv hval
        · have hreach : NReach M0 (poGet po i k) i j :=
            NReach_concat M0 _ i k j (hsound i k hi hk _ czero rfl)
              (hsound k j hk hj _ czero heq.symm)
          by_cases c1 : a = j ∧ b = i
          · rw [if_pos c1] at hval
            rw [c1.1, c1.2, ← hval]
            obtain ⟨l, hl⟩ := hreach
            exact ⟨l.reverse, vChain_reverse M0 hm0 _ l i j hl⟩
          · rw [if_neg c1] at hval
            by_cases c2 : a = i ∧ b = j
            · rw [if_pos c2] at hval
              rw [c2.1, c2.2, ← hval]
              exact hreach
            · rw [if_neg c2] at hval
              exact hsound a b ha2 hb2 v hv hval
    · exact ⟨hdim, hwf, hmir, hsound⟩
  · exact ⟨hdim, hwf, hmir, hsound⟩



theorem foldl_pres {β : Type} (P : Po → Prop) (f : Po → β → Po) :
    ∀ (l : List β) (po : Po), (∀ po2 b, b ∈ l → P po2 → P (f po2 b)) → P po →
      P (l.foldl f po) := by
  intro l
  induction l with
  | nil => intro po _ hp; exact hp
  | cons x t ih =>
    intro po hstep hp
    exact ih (f po x) (fun po2 b hb => hstep po2 b (by simp [hb])) (hstep po x (by simp) hp)

theorem closInv_dim (M0 po : Po) (h : ClosInv M0 po) : po.dim = M0.dim := h.1

theorem poInnerJ_inv (M0 : Po) (hm0 : mirrorOk M0) (k i : Nat) (po : Po)
    (hinv : ClosInv M0 po) (hk : k < M0.dim) (hi : i < M0.dim) :
    ClosInv M0 (poInnerJ M0.dim k i po) := by
  unfold poInnerJ
  apply foldl_pres (ClosInv M0) _ (List.range M0.dim) po
  · intro po2 j hj hp
    exact stepInv M0 po2 hm0 hp k i j (by rw [hp.1]; exact hk) (by rw [hp.1]; exact hi)
      (by rw [hp.1]; exact List.mem_range.mp hj)
  · exact hinv

theorem poOuterK_inv (M0 : Po) (hm0 : mirrorOk M0) (k : Nat) (po : Po)
    (hinv : ClosInv M0 po) (hk : k < M0.dim) :
    ClosInv M0 (poOuterK M0.dim k po) := by
  unfold poOuterK
  apply foldl_pres (ClosInv M0) _ (List.range M0.dim) po
  · intro po2 i hi hp
    exact poInnerJ_inv M0 hm0 k i po2 hp hk (List.mem_range.mp hi)
  · exact hinv

/-- Stability of a fixed non-INCOMPARABLE cell through the inner loop. -/
theorem poInnerJ_stable (M0 : Po) (hm0 : mirrorOk M0) (k i x y : Nat) (w : PoRel)
    (hw : w ≠ PoRel.inc) (hk : k < M0.dim) (hi : i < M0.dim)
    (hx : x < M0.dim) (hy : y < M0.dim) (po : Po)
    (hinv : ClosInv M0 po) (hval : poGet po x y = w) :
    poGet (poInnerJ M0.dim k i po) x y = w ∧ ClosInv M0 (poInnerJ M0.dim k i po) := by
  unfold poInnerJ
  apply foldl_pres (fun po2 => poGet po2 x y = w ∧ ClosInv M0 po2) _ (List.range M0.dim) po
  · intro po2 j hj ⟨hv2, hp2⟩
    have hd := hp2.1
    refine ⟨?_, stepInv M0 po2 hm0 hp2 k i j (by omega) (by omega)
      (by rw [hd]; exact List.mem_range.mp hj)⟩
    rw [step_stable po2 hp2.2.1 hp2.2.2.1 k i j x y (by omega) (by omega)
      (by rw [hd]; exact List.mem_range.mp hj) (by omega) (by omega)
      (by rw [hv2]; exact hw)]
    exact hv2
  · exact ⟨hval, hinv⟩

theorem poOuterK_stable (M0 : Po) (hm0 : mirrorOk M0) (k x y : Nat) (w : PoRel)
    (hw : w ≠ PoRel.inc) (hk : k < M0.dim) (hx : x < M0.dim) (hy : y < M0.dim) (po : Po)
    (hinv : ClosInv M0 po) (hval : poGet po x y = w) :
    poGet (poOuterK M0.dim k po) x y = w ∧ ClosInv M0 (poOuterK M0.dim k po) := by
  unfold poOuterK
  apply foldl_pres (fun po2 => poGet po2 x y = w ∧ ClosInv M0 po2) _ (List.range M0.dim) po
  · intro po2 i hi ⟨hv2, hp2⟩
    have := poInnerJ_stable M0 hm0 k (List.mem_range.mp hi |> fun h => i) x y w hw hk
      (List.mem_range.mp hi) hx hy po2 hp2 hv2
    exact ⟨this.1, this.2⟩
  · exact ⟨hval, hinv⟩



theorem step_hit (M0 po : Po) (K u w : Nat) (v : PoRel) (hv : v ≠ PoRel.inc)
    (hinv : ClosInv M0 po) (_hK : K < M0.dim) (hu : u < M0.dim) (hw : w < M0.dim)
    (h1 : poGet po u K = v) (h2 : poGet po K w = v) :
    poGet (poClosureStep K u w po) u w ≠ PoRel.inc := by
  obtain ⟨hdim, hwf, hmir, _⟩ := hinv
  unfold poClosureStep
  split
  · next hinc =>
    unfold poIncomparable at hinc
    simp only [decide_eq_true_eq] at hinc
    rw [if_pos (h1.trans h2.symm)]
    rw [poGet_setOrder po hwf u w _ u w (by omega) (by omega) (by omega) (by omega)]
    by_cases c1 : u = w ∧ w = u
    · rw [if_pos c1, h1]
      exact poInverse_ne_inc v hv
    · rw [if_neg c1, if_pos ⟨rfl, rfl⟩, h1]
      exact hv
  · next hinc =>
    unfold poIncomparable at hinc
    simp only [decide_eq_true_eq] at hinc
    exact hinc

theorem innerFold_keep (M0 : Po) (hm0 : mirrorOk M0) (K u x y : Nat)
    (hK : K < M0.dim) (hu : u < M0.dim) (hx : x < M0.dim) (hy : y < M0.dim) :
    ∀ (l : List Nat), (∀ m ∈ l, m < M0.dim) → ∀ po, ClosInv M0 po →
      poGet po x y ≠ PoRel.inc →
      poGet (l.foldl (fun m j => poClosureStep K u j m) po) x y ≠ PoRel.inc ∧
      ClosInv M0 (l.foldl (fun m j => poClosureStep K u j m) po) := by
  intro l hl po hinv hne
  apply foldl_pres (fun po2 => poGet po2 x y ≠ PoRel.inc ∧ ClosInv M0 po2)
  · intro po2 j hj ⟨hne2, hp2⟩
    have hd := hp2.1
    refine ⟨?_, stepInv M0 po2 hm0 hp2 K u j (by omega) (by omega) (by rw [hd]; exact hl j hj)⟩
    rw [step_stable po2 hp2.2.1 hp2.2.2.1 K u j x y (by omega) (by omega)
      (by rw [hd]; exact hl j hj) (by omega) (by omega) hne2]
    exact hne2
  · exact ⟨hne, hinv⟩

theorem innerHitAux (M0 : Po) (hm0 : mirrorOk M0) (K u w : Nat) (v : PoRel)
    (hv : v ≠ PoRel.inc) (hK : K < M0.dim) (hu : u < M0.dim) (hw : w < M0.dim) :
    ∀ (l : List Nat), (∀ m ∈ l, m < M0.dim) → w ∈ l → ∀ po, ClosInv M0 po →
      poGet po u K = v → poGet po K w = v →
      poGet (l.foldl (fun m j => poClosureStep K u j m) po) u w ≠ PoRel.inc := by
  intro l
  induction l with
  | nil => intro _ hwl; simp at hwl
  | cons j0 t ih =>
    intro hl hwl po hinv h1 h2
    simp only [List.foldl_cons]
    by_cases hj0 : j0 = w
    · subst hj0
      have hhit : poGet (poClosureStep K u j0 po) u j0 ≠ PoRel.inc :=
        step_hit M0 po K u j0 v hv hinv hK hu hw h1 h2
      have hinv2 : ClosInv M0 (poClosureStep K u j0 po) :=
        stepInv M0 po hm0 hinv K u j0 (by rw [hinv.1]; exact hK) (by rw [hinv.1]; exact hu)
          (by rw [hinv.1]; exact hw)
      exact (innerFold_keep M0 hm0 K u u j0 hK hu hu hw t
        (fun m hm => hl m (by simp [hm])) _ hinv2 hhit).1
    · have hinv2 : ClosInv M0 (poClosureStep K u j0 po) :=
        stepInv M0 po hm0 hinv K u j0 (by rw [hinv.1]; exact hK) (by rw [hinv.1]; exact hu)
          (by rw [hinv.1]; exact hl j0 (by simp))
      have hs1 : poGet (poClosureStep K u j0 po) u K = v := by
        rw [step_stable po hinv.2.1 hinv.2.2.1 K u j0 u K (by rw [hinv.1]; exact hK)
          (by rw [hinv.1]; exact hu) (by rw [hinv.1]; exact hl j0 (by simp))
          (by rw [hinv.1]; exact hu) (by rw [hinv.1]; exact hK) (by rw [h1]; exact hv)]
        exact h1
      have hs2 : poGet (poClosureStep K u j0 po) K w = v := by
        rw [step_stable po hinv.2.1 hinv.2.2.1 K u j0 K w (by rw [hinv.1]; exact hK)
          (by rw [hinv.1]; exact hu) (by rw [hinv.1]; exact hl j0 (by simp))
          (by rw [hinv.1]; exact hK) (by rw [hinv.1]; exact hw) (by rw [h2]; exact hv)]
        exact h2
      exact ih (fun m hm => hl m (by simp [hm])) (by
        rcases List.mem_cons.mp hwl with hcon | hcon
        · exact absurd hcon.symm hj0
        · exact hcon) _ hinv2 hs1 hs2



theorem poInnerJ_keep (M0 : Po) (hm0 : mirrorOk M0) (K i x y : Nat)
    (hK : K < M0.dim) (hi : i < M0.dim) (hx : x < M0.dim) (hy : y < M0.dim)
    (po : Po) (hinv : ClosInv M0 po) (hne : poGet po x y ≠ PoRel.inc) :
    poGet (poInnerJ M0.dim K i po) x y ≠ PoRel.inc ∧ ClosInv M0 (poInnerJ M0.dim K i po) :=
  innerFold_keep M0 hm0 K i x y hK hi hx hy (List.range M0.dim)
    (fun _ hm => List.mem_range.mp hm) po hinv hne

theorem outerHitAux (M0 : Po) (hm0 : mirrorOk M0) (K u w : Nat) (v : PoRel)
    (hv : v ≠ PoRel.inc) (hK : K < M0.dim) (hu : u < M0.dim) (hw : w < M0.dim) :
    ∀ (l : List Nat), (∀ m ∈ l, m < M0.dim) → u ∈ l → ∀ po, ClosInv M0 po →
      poGet po u K = v → poGet po K w = v →
      poGet (l.foldl (fun m i => poInnerJ M0.dim K i m) po) u w ≠ PoRel.inc := by
  intro l
  induction l with
  | nil => intro _ hul; simp at hul
  | cons i0 t ih =>
    intro hl hul po hinv h1 h2
    simp only [List.foldl_cons]
    by_cases hi0 : i0 = u
    · subst hi0
      have hhit : poGet (poInnerJ M0.dim K i0 po) i0 w ≠ PoRel.inc := by
        unfold poInnerJ
        exact innerHitAux M0 hm0 K i0 w v hv hK hu hw (List.range M0.dim)
          (fun m hm => List.mem_range.mp hm) (List.mem_range.mpr hw) po hinv h1 h2
      have hinv2 : ClosInv M0 (poInnerJ M0.dim K i0 po) :=
        poInnerJ_inv M0 hm0 K i0 po hinv hK hu
      clear ih
      revert hhit hinv2
      generalize poInnerJ M0.dim K i0 po = po2
      intro hhit hinv2
      apply (foldl_pres (fun po3 => poGet po3 i0 w ≠ PoRel.inc ∧ ClosInv M0 po3)
        _ t po2 ?_ ⟨hhit, hinv2⟩).1
      intro po3 b hb ⟨hne3, hp3⟩
      exact ⟨(poInnerJ_keep M0 hm0 K b i0 w hK (hl b (by simp [hb])) hu hw po3 hp3 hne3).1,
        poInnerJ_inv M0 hm0 K b po3 hp3 hK (hl b (by simp [hb]))⟩
    · have hinv2 : ClosInv M0 (poInnerJ M0.dim K i0 po) :=
        poInnerJ_inv M0 hm0 K i0 po hinv hK (hl i0 (by simp))
      have hs1 := poInnerJ_stable M0 hm0 K i0 u K v hv hK (hl i0 (by simp)) hu hK po hinv h1
      have hs2 := poInnerJ_stable M0 hm0 K i0 K w v hv hK (hl i0 (by simp)) hK hw po hinv h2
      exact ih (fun m hm => hl m (by simp [hm])) (by
        rcases List.mem_cons.mp hul with hcon | hcon
        · exact absurd hcon.symm hi0
        · exact hcon) _ hinv2 hs1.1 hs2.1

theorem poOuterK_hit (M0 : Po) (hm0 : mirrorOk M0) (K u w : Nat) (v : PoRel)
    (hv : v ≠ PoRel.inc) (hK : K < M0.dim) (hu : u < M0.dim) (hw : w < M0.dim)
    (po : Po) (hinv : ClosInv M0 po) (h1 : poGet po u K = v) (h2 : poGet po K w = v) :
    poGet (poOuterK M0.dim K po) u w ≠ PoRel.inc := by
  unfold poOuterK
  exact outerHitAux M0 hm0 K u w v hv hK hu hw (List.range M0.dim)
    (fun m hm => List.mem_range.mp hm) (List.mem_range.mpr hu) po hinv h1 h2



theorem first_occ {a : Nat} : ∀ (l : List Nat), a ∈ l →
    ∃ l1 l2, l = l1 ++ a :: l2 ∧ a ∉ l1 := by
  intro l
  induction l with
  | nil => intro h; simp at h
  | cons x t ih =>
    intro h
    by_cases hx : x = a
    · subst hx
      exact ⟨[], t, by simp, by simp⟩
    · have ha : a ∈ t := by
        rcases List.mem_cons.mp h with hc | hc
        · exact absurd hc.symm hx
        · exact hc
      obtain ⟨l1, l2, hd, hno⟩ := ih ha
      exact ⟨x :: l1, l2, by rw [hd]; simp, by
        simp only [List.mem_cons]
        push_neg
        exact ⟨fun hc => hx hc.symm, hno⟩⟩

theorem last_occ {a : Nat} : ∀ (l : List Nat), a ∈ l →
    ∃ l1 l2, l = l1 ++ a :: l2 ∧ a ∉ l2 := by
  intro l
  induction l with
  | nil => intro h; simp at h
  | cons x t ih =>
    intro h
    by_cases ht : a ∈ t
    · obtain ⟨l1, l2, hd, hno⟩ := ih ht
      exact ⟨x :: l1, l2, by rw [hd]; simp, hno⟩
    · have hx : x = a := by
        rcases List.mem_cons.mp h with hc | hc
        · exact hc.symm
        · exact absurd hc ht
      subst hx
      exact ⟨[], t, by simp, ht⟩

theorem poClosure_eq_foldK (po : Po) : poClosure po = foldK po po.dim := rfl

theorem foldK_succ (M0 : Po) (K : Nat) :
    foldK M0 (K + 1) = poOuterK M0.dim K (foldK M0 K) := by
  unfold foldK
  rw [List.range_succ, List.foldl_append]
  rfl

theorem closure_completeness (M0 : Po) (hwf : WfPo M0) (hmir : mirrorOk M0)
    (hcons : ConsistentPo M0) :
    ∀ K, K ≤ M0.dim →
      ClosInv M0 (foldK M0 K) ∧
      (∀ v, v ≠ PoRel.inc → ∀ u w, BReach M0 v K u w →
        poGet (foldK M0 K) u w ≠ PoRel.inc) := by
  intro K
  induction K with
  | zero =>
    intro _
    constructor
    · refine ⟨rfl, hwf, hmir, ?_⟩
      intro a b ha hb v hv hval
      refine ⟨[], ?_⟩
      simp only [vChain, Bool.and_eq_true, decide_eq_true_eq]
      exact ⟨⟨ha, hb⟩, hval⟩
    · intro v hv u w ⟨l, hc, hbound⟩
      cases l with
      | nil =>
        simp only [vChain, Bool.and_eq_true, decide_eq_true_eq] at hc
        unfold foldK
        simp only [List.range_zero, List.foldl_nil]
        rw [hc.2]
        exact hv
      | cons m t => exact absurd (hbound m (by simp)) (by omega)
  | succ K ih =>
    intro hK1
    have hKd : K < M0.dim := by omega
    obtain ⟨hinvA, hcompA⟩ := ih (by omega)
    rw [foldK_succ]
    constructor
    · exact poOuterK_inv M0 hmir K (foldK M0 K) hinvA hKd
    · intro v hv u w ⟨l, hc, hbound⟩
      obtain ⟨hu, hw, hnodes⟩ := vChain_bounds M0 v l u w hc
      by_cases hKl : K ∈ l
      · -- the chain passes through K: split at the first and last occurrence
        obtain ⟨l1, l2, hd, hno1⟩ := first_occ l hKl
        subst hd
        obtain ⟨c1, c2⟩ := (vChain_append M0 v l1 u K l2 w).mp hc
        have hb1 : ∀ m ∈ l1, m < K := by
          intro m hm
          have h1 := hbound m (by simp [hm])
          have h2 : m ≠ K := fun hc2 => hno1 (hc2 ▸ hm)
          omega
        obtain ⟨l2f, c2f, hb2⟩ : ∃ l2f, vChain M0 v K l2f w = true ∧ ∀ m ∈ l2f, m < K := by
          by_cases hKl2 : K ∈ l2
          · obtain ⟨l2a, l2b, hd2, hno2⟩ := last_occ l2 hKl2
            subst hd2
            obtain ⟨_, c3⟩ := (vChain_append M0 v l2a K K l2b w).mp c2
            refine ⟨l2b, c3, ?_⟩
            intro m hm
            have h1 := hbound m (by simp [hm])
            have h2 : m ≠ K := fun hc2 => hno2 (hc2 ▸ hm)
            omega
          · refine ⟨l2, c2, ?_⟩
            intro m hm
            have h1 := hbound m (by simp [hm])
            have h2 : m ≠ K := fun hc2 => hKl2 (hc2 ▸ hm)
            omega
        have hA1 : poGet (foldK M0 K) u K ≠ PoRel.inc :=
          hcompA v hv u K ⟨l1, c1, hb1⟩
        have hA2 : poGet (foldK M0 K) K w ≠ PoRel.inc :=
          hcompA v hv K w ⟨l2f, c2f, hb2⟩
        have hval1 : poGet (foldK M0 K) u K = v := by
          have hs := hinvA.2.2.2 u K (by rw [hinvA.1]; exact hu) (by rw [hinvA.1]; exact hKd)
            _ hA1 rfl
          exact hcons _ v u K hA1 hv hs ⟨l1, c1⟩
        have hval2 : poGet (foldK M0 K) K w = v := by
          have hs := hinvA.2.2.2 K w (by rw [hinvA.1]; exact hKd) (by rw [hinvA.1]; exact hw)
            _ hA2 rfl
          exact hcons _ v K w hA2 hv hs ⟨l2f, c2f⟩
        exact poOuterK_hit M0 hmir K u w v hv hKd hu hw (foldK M0 K) hinvA hval1 hval2
      · -- the chain avoids K entirely
        have hb : ∀ m ∈ l, m < K := by
          intro m hm
          have h1 := hbound m hm
          have h2 : m ≠ K := fun hc2 => hKl (hc2 ▸ hm)
          omega
        have hA : poGet (foldK M0 K) u w ≠ PoRel.inc := hcompA v hv u w ⟨l, hc, hb⟩
        exact (foldl_pres (fun po2 => poGet po2 u w ≠ PoRel.inc ∧ ClosInv M0 po2)
          (fun m i => poInnerJ M0.dim K i m) (List.range M0.dim) (foldK M0 K)
          (fun po2 b hb2 hp2 =>
            ⟨(poInnerJ_keep M0 hmir K b u w hKd (List.mem_range.mp hb2) hu hw po2 hp2.2
                hp2.1).1,
             poInnerJ_inv M0 hmir K b po2 hp2.2 hKd (List.mem_range.mp hb2)⟩)
          ⟨hA, hinvA⟩).1



theorem closure_inv (M0 : Po) (hwf : WfPo M0) (hmir : mirrorOk M0) :
    ClosInv M0 (poClosure M0) := by
  rw [poClosure_eq_foldK]
  unfold foldK
  apply foldl_pres (ClosInv M0)
  · intro po2 k hk hp
    exact poOuterK_inv M0 hmir k po2 hp (List.mem_range.mp hk)
  · refine ⟨rfl, hwf, hmir, ?_⟩
    intro a b ha hb v hv hval
    refine ⟨[], ?_⟩
    simp only [vChain, Bool.and_eq_true, decide_eq_true_eq]
    exact ⟨⟨ha, hb⟩, hval⟩

theorem closure_complete (M0 : Po) (hwf : WfPo M0) (hmir : mirrorOk M0)
    (hcons : ConsistentPo M0) (v : PoRel) (hv : v ≠ PoRel.inc) (u w : Nat)
    (hr : NReach M0 v u w) : poGet (poClosure M0) u w ≠ PoRel.inc := by
  rw [poClosure_eq_foldK]
  obtain ⟨l, hc⟩ := hr
  obtain ⟨_, _, hnodes⟩ := vChain_bounds M0 v l u w hc
  exact (closure_completeness M0 hwf hmir hcons M0.dim (le_refl _)).2 v hv u w
    ⟨l, hc, hnodes⟩

theorem closure_value (M0 : Po) (hwf : WfPo M0) (hmir : mirrorOk M0)
    (hcons : ConsistentPo M0) (v : PoRel) (hv : v ≠ PoRel.inc) (u w : Nat)
    (hu : u < M0.dim) (hw : w < M0.dim)
    (hr : NReach M0 v u w) : poGet (poClosure M0) u w = v := by
  have hne := closure_complete M0 hwf hmir hcons v hv u w hr
  have hinv := closure_inv M0 hwf hmir
  have hs := hinv.2.2.2 u w (by rw [hinv.1]; exact hu) (by rw [hinv.1]; exact hw)
    _ hne rfl
  exact hcons _ v u w hne hv hs hr

theorem step_fix (M0 : Po) (hwf : WfPo M0) (hmir : mirrorOk M0) (hcons : ConsistentPo M0)
    (k i j : Nat) (hk : k < M0.dim) (hi : i < M0.dim) (hj : j < M0.dim) :
    poClosureStep k i j (poClosure M0) = poClosure M0 := by
  have hinv := closure_inv M0 hwf hmir
  unfold poClosureStep
  split
  · next hinc =>
    split
    · next heq =>
      unfold poIncomparable at hinc
      simp only [decide_eq_true_eq] at hinc
      by_cases hzero : poGet (poClosure M0) i k = PoRel.inc
      · rw [hzero]
        apply poSetOrder_of_same
        · exact hinc
        · rw [hinv.2.2.1 i (by rw [hinv.1]; exact hi) j (by rw [hinv.1]; exact hj), hinc]
          rfl
      · exfalso
        have hr1 : NReach M0 (poGet (poClosure M0) i k) i k :=
          hinv.2.2.2 i k (by rw [hinv.1]; exact hi) (by rw [hinv.1]; exact hk) _ hzero rfl
        have hr2 : NReach M0 (poGet (poClosure M0) i k) k j := by
          apply hinv.2.2.2 k j (by rw [hinv.1]; exact hk) (by rw [hinv.1]; exact hj) _ hzero
          exact heq.symm
        exact closure_complete M0 hwf hmir hcons _ hzero i j
          (NReach_concat M0 _ i k j hr1 hr2) hinc
    · rfl
  · rfl

theorem foldl_fixed {β : Type} (f : Po → β → Po) (x : Po) :
    ∀ (l : List β), (∀ b ∈ l, f x b = x) → l.foldl f x = x := by
  intro l
  induction l with
  | nil => intro _; rfl
  | cons b t ih =>
    intro h
    simp only [List.foldl_cons, h b (by simp)]
    exact ih (fun c hc => h c (by simp [hc]))

theorem closure_idem (M0 : Po) (hwf : WfPo M0) (hmir : mirrorOk M0)
    (hcons : ConsistentPo M0) : poClosure (poClosure M0) = poClosure M0 := by
  have hinv := closure_inv M0 hwf hmir
  have hdim : (poClosure M0).dim = M0.dim := hinv.1
  rw [poClosure_eq_foldK (poClosure M0)]
  unfold foldK
  apply foldl_fixed
  intro k hk
  have hkd : k < M0.dim := by
    rw [← hdim]
    exact List.mem_range.mp hk
  rw [hdim]
  unfold poOuterK
  apply foldl_fixed
  intro i hi
  unfold poInnerJ
  apply foldl_fixed
  intro j hj
  exact step_fix M0 hwf hmir hcons k i j hkd (List.mem_range.mp hi) (List.mem_range.mp hj)

/-! ### Claims C1, C2, C3: code behaviour at the spec scenarios -/

/-- C1.  The hill-climb driver does not restart after an improving pass:
`hc->improved` is assigned 0 at the end of every completed pass, so the
`while (!err && hc->improved)` loop exits after a single pass and the
step returns COMPLETE.  In the spec's convergence scenario (n = 4, no
edges, score `-sum(i * perm[i])`, start `[0,1,2,3]`) a single call
returns COMPLETE with best `[3,1,2,0]` — the best single-swap neighbour
of the start — and further calls return COMPLETE unchanged, never
reaching the claimed `[3,2,1,0]`. -/
theorem c1_hill_climb_single_pass_code_behavior :
    hcRun1.1 = RC_ERR_COMPLETE ∧ hcRun1.2.best_seq.elements = [3, 1, 2, 0] ∧
    (hill_climb_step hcRun1.2 po4 evalC1).1 = RC_ERR_COMPLETE ∧
    (hill_climb_step hcRun1.2 po4 evalC1).2.best_seq.elements = [3, 1, 2, 0] ∧
    [3, 1, 2, 0] ≠ [3, 2, 1, 0] := by
  refine ⟨rfl, rfl, rfl, rfl, by decide⟩

/-- C2.  Extraction order of the code's heap on keys
`3, 1, 4, 1, 5, 9, 2, 6` (value = key): because `heapify` never selects
the right child and excludes the element at index `size`, the extracted
sequence is `[9, 6, 4, 3, 2, 1, 5, 1]`, not the claimed
`[9, 6, 5, 4, 3, 2, 1, 1]`. -/
theorem c2_heap_extraction_code_behavior :
    heapDrain 8 c2heap = [9, 6, 4, 3, 2, 1, 5, 1] ∧
    heapDrain 8 c2heap ≠ [9, 6, 5, 4, 3, 2, 1, 1] := by
  exact ⟨rfl, by decide⟩

/-- C3.  The heap-root invariant fails on the code: after inserting keys
`3, 1, 2, 0` and extracting once, the root holds key 1 while key 2 is
still stored (at C index 3), so the root key is not ≥ every key. -/
theorem c3_heap_root_invariant_violated :
    (c3heap.data.all fun e => e.1 ≤ (hGet c3heap.data 1).1) = false ∧
    c3heap.data = [(1, 1), (0, 0), (2, 2)] := by
  exact ⟨by decide, rfl⟩

/-! ### Counterexamples: claims C4, C5, C6, C7, C8 as stated -/

/-- C4 counterexample.  With `M[0][1] = EQ`, `M[1][2] = EQ` and
`M[0][2] = INCOMPARABLE`, `poClosure` sets `M[0][2]` to EQ: the guard
only tests `poGet i k = poGet k j`, which two EQ entries satisfy, so the
closure does not leave the pair INCOMPARABLE. -/
theorem c4_counterexample_eq_propagated :
    poGet poEq3 0 1 = PoRel.eq ∧ poGet poEq3 1 2 = PoRel.eq ∧
    poGet poEq3 0 2 = PoRel.inc ∧ poGet (poClosure poEq3) 0 2 = PoRel.eq := by
  decide

/-- C5 counterexample.  `poC5` is built only by set-order calls, yet after
closure `get(0,1) = LT` and `get(1,2) = LT` while `get(0,2) = GT`: the
closure never rewrites a pre-set comparable entry, so a conflicting
direct edge defeats transitivity. -/
theorem c5_counterexample_preset_conflict :
    poGet (poClosure poC5) 0 1 = PoRel.lt ∧ poGet (poClosure poC5) 1 2 = PoRel.lt ∧
    poGet (poClosure poC5) 0 2 = PoRel.gt ∧ poGet (poClosure poC5) 0 2 ≠ PoRel.lt := by
  decide

/-- Unfolding of `poClosure` for a dimension-4 matrix into its four
outer-loop iterations. -/
theorem poClosure_dim4 (po : Po) (h : po.dim = 4) :
    poClosure po = poOuterK 4 3 (poOuterK 4 2 (poOuterK 4 1 (poOuterK 4 0 po))) := by
  unfold poClosure
  rw [h]
  simp only [show List.range 4 = [0, 1, 2, 3] from rfl, List.foldl_cons, List.foldl_nil]

/-- C6 counterexample.  `poC6` is built only by set-order calls, yet
applying `poClosure` twice differs from applying it once: the first pass
derives `(1,3) = LT` only at `k = 2`, after `k = 1` has already passed,
so `(0,3)` (whose only bridge is `k = 1`, since `(0,2) = GT` blocks
`k = 2`) is filled only by a second pass. -/
theorem c6_counterexample_not_idempotent :
    poClosure (poClosure poC6) ≠ poClosure poC6 := by
  have hc6 : poC6 = poC6lit := by decide
  have h1 : poOuterK 4 0 poC6lit = poC6lit := by decide
  have h2 : poOuterK 4 1 poC6lit = poC6lit := by decide
  have h3 : poOuterK 4 2 poC6lit = poC6closed := by decide
  have h4 : poOuterK 4 3 poC6closed = poC6closed := by decide
  have g1 : poOuterK 4 0 poC6closed = poC6closed := by decide
  have g2 : poOuterK 4 1 poC6closed = poC6closed2 := by decide
  have g3 : poOuterK 4 2 poC6closed2 = poC6closed2 := by decide
  have g4 : poOuterK 4 3 poC6closed2 = poC6closed2 := by decide
  have e1 : poClosure poC6 = poC6closed := by
    rw [hc6, poClosure_dim4 poC6lit rfl, h1, h2, h3, h4]
  have e2 : poClosure poC6closed = poC6closed2 := by
    rw [poClosure_dim4 poC6closed rfl, g1, g2, g3, g4]
  rw [e1, e2]
  decide

/-- C7 counterexample.  An oracle failure with status 42 during the
best-first INIT phase is returned as `RC_ERR_NODATA`, not as 42: the
status is remapped, not propagated verbatim. -/
theorem c7_counterexample_error_remapped :
    bf42.1 = RC_ERR_NODATA ∧ bf42.1 ≠ 42 := by
  decide

/-- C8 counterexample.  On the GT-cycle order `poCyc` the first
best-first step returns `RC_ERR_NODATA` with `next_seq = [0, 3, 2, 1]`,
which is not precedence-valid (`get(3, 1) = GT`): the
topological-sort-by-swap repair cannot produce a valid ordering when the
GT relation is cyclic, and the code does not detect this. -/
theorem c8_counterexample_invalid_repair :
    bfCyc.1 = RC_ERR_NODATA ∧ pmLength bfCyc.2.next_seq = 4 ∧
    is_valid_partial_perm poCyc bfCyc.2.next_seq 4 = false := by
  decide

/-! ### Claim C7, amended: where each oracle status actually goes -/

/-- C7 (amended).  Inside a hill-climb pass a failing candidate
evaluation is returned verbatim (first conjunct, here for the first
candidate of a pass); but a failure of the initial best-sequence
evaluation in `hill_climb_step` is remapped to `RC_ERR_NODATA` (second
conjunct), a failure during the best-first INIT phase is remapped to
`RC_ERR_NODATA` (third conjunct), and a failure during the best-first
EXPAND phase is remapped to `RC_ERR_NODATA` as well (fourth conjunct). -/
theorem c7_error_propagation_amended :
    ∀ (hc : HcState) (bf : BfState) (po : Po) (evf : EvalFn) (e : Int), e ≠ 0 →
      (hc.improved = true → (evf hc.best_seq).1 = 0 → hc.i < hc.n - 1 →
        check_valid_swap po (pmCopy hc.next_seq hc.best_seq) hc.i hc.j = true →
        (evf (pmSwap (pmCopy hc.next_seq hc.best_seq) hc.i hc.j)).1 = e →
        (hill_climb_step hc po evf).1 = e) ∧
      ((evf hc.best_seq).1 = e → (hill_climb_step hc po evf).1 = RC_ERR_NODATA) ∧
      (bf.state = BfPhase.init → bf.i < bf.n → poIsMin bf.po bf.i = true →
        (evf (pmSetSize (pmSwap (pmIdentity (pmNew bf.n)) 0 bf.i) 1)).1 = e →
        (best_first_step bf evf).1 = RC_ERR_NODATA) ∧
      (bf.state = BfPhase.expand → bf.j < bf.n →
        is_valid_partial_perm bf.po
          (pmSetSize (pmSwap (pmCopyAll bf.next_seq bf.best_seq)
            (pmSize bf.best_seq) bf.j) (pmSize bf.best_seq + 1)) bf.n = true →
        (evf (pmSetSize (pmSwap (pmCopyAll bf.next_seq bf.best_seq)
          (pmSize bf.best_seq) bf.j) (pmSize bf.best_seq + 1))).1 = e →
        (best_first_step bf evf).1 = RC_ERR_NODATA) := by
  intro hc bf po evf e he
  refine ⟨?_, ?_, ?_, ?_⟩
  · intro himp h0 hi hv hcand
    obtain ⟨f, hf⟩ : ∃ f, (hc.n + 1) * (hc.n + 1) = f + 1 :=
      ⟨hc.n * hc.n + 2 * hc.n, by ring⟩
    simp [hill_climb_step, hcScan, h0, himp, hf, hv, hcand, he, hi]
  · intro h0
    simp [hill_climb_step, h0, he]
  · intro hst hi hmin hev
    simp [best_first_step, hst, bfInitLoop, hi, hmin, hev, he]
  · intro hst hj hv hev
    simp [best_first_step, hst, bfExpandLoop, hj, hv, hev, he]

/-- Witness for the amended C7 at concrete inputs: candidate failure 42
is returned as 42 by the hill climb; initial-evaluation failure 5,
best-first INIT failure 5 and best-first EXPAND failure 5 all come back
as `RC_ERR_NODATA`. -/
theorem c7_error_propagation_amended_witness :
    (hill_climb_step (hill_climb_init (pmIdentity (pmNew 2))) (poNew 2) (evCand 42)).1 = 42 ∧
    (hill_climb_step (hill_climb_init (pmIdentity (pmNew 2))) (poNew 2) (fun _ => (5, 0))).1 =
      RC_ERR_NODATA ∧
    (best_first_step (best_first_init 1 (poNew 1)) (fun _ => (5, 0))).1 = RC_ERR_NODATA ∧
    (best_first_step { best_first_init 1 (poNew 1) with state := BfPhase.expand }
      (fun _ => (5, 0))).1 = RC_ERR_NODATA :=
  ⟨(c7_error_propagation_amended (hill_climb_init (pmIdentity (pmNew 2)))
      (best_first_init 1 (poNew 1)) (poNew 2) (evCand 42) 42 (by decide)).1
      (by decide) (by decide) (by decide) (by decide) (by decide),
   (c7_error_propagation_amended (hill_climb_init (pmIdentity (pmNew 2)))
      (best_first_init 1 (poNew 1)) (poNew 2) (fun _ => (5, 0)) 5 (by decide)).2.1 (by decide),
   (c7_error_propagation_amended (hill_climb_init (pmIdentity (pmNew 2)))
      (best_first_init 1 (poNew 1)) (poNew 2) (fun _ => (5, 0)) 5 (by decide)).2.2.1
      (by decide) (by decide) (by decide) (by decide),
   (c7_error_propagation_amended (hill_climb_init (pmIdentity (pmNew 2)))
      { best_first_init 1 (poNew 1) with state := BfPhase.expand } (poNew 2)
      (fun _ => (5, 0)) 5 (by decide)).2.2.2
      (by decide) (by decide) (by decide) (by decide)⟩

/-! ### Claim C10: queue capacity -/

/-- C10.  `best_first_init` allocates its priority queue with capacity
exactly `n * n`, and the assertion guarding `heap_insert` holds at any
insertion that leaves the occupancy at or below `n * n`. -/
theorem c10_queue_capacity :
    ∀ (n : Nat) (po : Po) (h : Heap Permutation),
      (best_first_init n po).pq.capacity = n * n ∧
      (h.capacity = n * n → h.data.length + 1 ≤ n * n → heapInsertPre h) := by
  intro n po h
  refine ⟨rfl, ?_⟩
  intro hc hl
  unfold heapInsertPre
  omega

/-- Witness for C10 at `n = 2` with the empty queue the driver starts
with. -/
theorem c10_queue_capacity_witness :
    (best_first_init 2 (poNew 2)).pq.capacity = 2 * 2 ∧
    heapInsertPre (heapNew Permutation (2 * 2)) :=
  ⟨(c10_queue_capacity 2 (poNew 2) (heapNew Permutation (2 * 2))).1,
   (c10_queue_capacity 2 (poNew 2) (heapNew Permutation (2 * 2))).2 rfl (by decide)⟩

/-- C9.  The heap-content invariant: a freshly initialized best-first
state satisfies `BfInv`, and `best_first_step` preserves it for any
oracle — every permutation in the priority queue remains a valid partial
permutation w.r.t. the partial order with capacity `n`. -/
theorem c9_heap_contents_invariant :
    ∀ (n : Nat) (po : Po) (bf : BfState) (evf : EvalFn),
      (po.dim = n → BfInv (best_first_init n po)) ∧
      (BfInv bf → BfInv (best_first_step bf evf).2) := by
  intro n po bf evf
  constructor
  · intro hd
    refine ⟨hd, ?_, rfl, ?_, rfl, ?_⟩
    · simp [PermWf, best_first_init, pmNew]
    · simp [PermWf, best_first_init, pmNew]
    · intro e he
      simp [best_first_init, heapNew] at he
  · intro hinv
    obtain ⟨hd, hbw, hbc, hnw, hnc, hq⟩ := hinv
    unfold best_first_step
    split
    · -- INIT
      obtain ⟨hpq, hw2, hc2⟩ := bfInitLoop_inv bf.n bf.po evf hd (bf.n + 1) bf.pq bf.next_seq bf.i hq hnw hnc
      dsimp only
      split
      · exact ⟨hd, hbw, hbc, hw2, hc2, hpq⟩
      · exact ⟨hd, hbw, hbc, hw2, hc2, hpq⟩
    · -- VISIT
      split
      · exact ⟨hd, hbw, hbc, hnw, hnc, hq⟩
      · next hne =>
        have hlen : 1 ≤ bf.pq.data.length := by
          unfold heapSize at hne
          omega
        have hmem : hGet bf.pq.data 1 ∈ bf.pq.data := hGet_mem _ 1 (le_refl 1) hlen
        obtain ⟨hv, hcn, hwf⟩ := hq _ hmem
        have hb1 : pmCopyAll bf.best_seq (heapExtractMax bf.pq).1 =
            ⟨(hGet bf.pq.data 1).2.size, bf.best_seq.capacity, (hGet bf.pq.data 1).2.elements⟩ :=
          pmCopyAll_eq _ _ hbw hwf (hbc.trans hcn.symm)
        have hb1w : PermWf (pmCopyAll bf.best_seq (heapExtractMax bf.pq).1) := by
          rw [hb1]
          unfold PermWf
          exact hwf.trans (hcn.trans hbc.symm)
        have hb1c : (pmCopyAll bf.best_seq (heapExtractMax bf.pq).1).capacity = bf.n := by
          rw [hb1]
          exact hbc
        have hpq2 : ∀ e ∈ (heapExtractMax bf.pq).2.data,
            is_valid_partial_perm bf.po e.2 bf.n = true ∧ e.2.capacity = bf.n ∧ PermWf e.2 :=
          fun e he => hq e (heapExtractMax_subset bf.pq e he)
        dsimp only
        split
        · exact ⟨hd, hb1w, hb1c, hnw, hnc, hpq2⟩
        · exact ⟨hd, hb1w, hb1c, hnw, hnc, hpq2⟩
    · -- EXPAND
      obtain ⟨hpq, hw2, hc2⟩ := bfExpandLoop_inv bf.n bf.po evf bf.best_seq hbw hbc (bf.n + 1) bf.pq bf.next_seq bf.j hq hnw hnc
      dsimp only
      split
      · exact ⟨hd, hbw, hbc, hw2, hc2, hpq⟩
      · exact ⟨hd, hbw, hbc, hw2, hc2, hpq⟩
    · -- DONE
      refine ⟨hd, hbw, hbc, hnw, hnc, ?_⟩
      intro e he
      simp at he

/-- Witness for C9: the invariant holds for a fresh one-element driver
and after one step of it. -/
theorem c9_heap_contents_invariant_witness :
    BfInv (best_first_init 1 (poNew 1)) ∧
    BfInv (best_first_step (best_first_init 1 (poNew 1)) (fun _ => (0, 0))).2 :=
  ⟨(c9_heap_contents_invariant 1 (poNew 1) (best_first_init 1 (poNew 1)) (fun _ => (0, 0))).1 rfl,
   (c9_heap_contents_invariant 1 (poNew 1) (best_first_init 1 (poNew 1)) (fun _ => (0, 0))).2
     ((c9_heap_contents_invariant 1 (poNew 1) (best_first_init 1 (poNew 1)) (fun _ => (0, 0))).1
       rfl)⟩

/-- C8 (amended).  When the partial order satisfies the mirror invariant
and its GT relation is transitive, and the driver state is well formed
(dimension matches `n`, scratch buffers have capacity `n`, and in the
EXPAND phase `best_seq` holds a partial permutation of `[0, n)`), a
`best_first_step` that returns `RC_ERR_NODATA` leaves in `next_seq` a
full permutation of `[0, n)` of length `n` that is precedence-valid. -/
theorem c8_nodata_repair_amended :
    ∀ (bf : BfState) (evf : EvalFn),
      bf.po.dim = bf.n → mirrorOk bf.po → gtTrans bf.po →
      PermWf bf.next_seq → bf.next_seq.capacity = bf.n →
      (bf.state = BfPhase.expand →
        PermWf bf.best_seq ∧ bf.best_seq.capacity = bf.n ∧
        List.Perm bf.best_seq.elements (List.range bf.n) ∧ pmSize bf.best_seq < bf.n) →
      (best_first_step bf evf).1 = RC_ERR_NODATA →
      pmLength (best_first_step bf evf).2.next_seq = bf.n ∧
      List.Perm (best_first_step bf evf).2.next_seq.elements (List.range bf.n) ∧
      is_valid_partial_perm bf.po (best_first_step bf evf).2.next_seq bf.n = true := by
  intro bf evf hd hm ht hnw hnc hbest hnd
  unfold best_first_step at hnd ⊢
  split at hnd
  · -- INIT
    dsimp only at hnd ⊢
    split at hnd
    · next er heq =>
      obtain ⟨h1, h2, h3, h4⟩ :=
        bfInitLoop_nodata bf.n bf.po evf hd hm ht (bf.n + 1) bf.pq bf.next_seq bf.i hnw hnc er heq
      exact ⟨h2, h3, h4⟩
    · next heq =>
      simp [RC_ERR_NONE, RC_ERR_NODATA] at hnd
  · -- VISIT
    next hst =>
    split at hnd
    · simp [RC_ERR_COMPLETE, RC_ERR_NODATA] at hnd
    · dsimp only at hnd
      split at hnd
      · simp [RC_ERR_COMPLETE, RC_ERR_NODATA] at hnd
      · simp [RC_ERR_NONE, RC_ERR_NODATA] at hnd
  · -- EXPAND
    next hst =>
    obtain ⟨hbw, hbc, hbp, hbs⟩ := hbest hst
    dsimp only at hnd ⊢
    split at hnd
    · next er heq =>
      obtain ⟨h1, h2, h3, h4⟩ :=
        bfExpandLoop_nodata bf.n bf.po evf bf.best_seq hd hm ht hbw hbc hbp hbs
          (bf.n + 1) bf.pq bf.next_seq bf.j hnw hnc er heq
      exact ⟨h2, h3, h4⟩
    · next heq =>
      simp [RC_ERR_NONE, RC_ERR_NODATA] at hnd
  · -- DONE
    simp [RC_ERR_NONE, RC_ERR_NODATA] at hnd

/-- Witness for the amended C8: order `0 < 1` on two elements, oracle
failing with status 7; the repaired `next_seq` is a valid full
permutation. -/
theorem c8_nodata_repair_amended_witness :
    pmLength (best_first_step (best_first_init 2 poW8) (fun _ => (7, 0))).2.next_seq = 2 ∧
    List.Perm (best_first_step (best_first_init 2 poW8)
      (fun _ => (7, 0))).2.next_seq.elements (List.range 2) ∧
    is_valid_partial_perm poW8 (best_first_step (best_first_init 2 poW8)
      (fun _ => (7, 0))).2.next_seq 2 = true :=
  c8_nodata_repair_amended (best_first_init 2 poW8) (fun _ => (7, 0)) rfl (by decide) (by decide)
    (by decide) rfl (by decide) (by decide)

/-- C4 (amended).  The closure does propagate equality: on a well-formed
mirror-consistent conflict-free matrix, if `M[i][k] = EQ` and
`M[k][j] = EQ` then `poClosure` makes `M[i][j]` equal to EQ (in
particular a previously-INCOMPARABLE pair becomes EQ). -/
theorem c4_closure_propagates_eq :
    ∀ (po : Po) (i j k : Nat), WfPo po → mirrorOk po → ConsistentBnd po →
      i < po.dim → j < po.dim → k < po.dim →
      poGet po i k = PoRel.eq → poGet po k j = PoRel.eq →
      poGet (poClosure po) i j = PoRel.eq := by
  intro po i j k hwf hmir hcons hi hj hk h1 h2
  apply closure_value po hwf hmir (consBnd_to_po po hcons) PoRel.eq (by simp) i j hi hj
  refine ⟨[k], ?_⟩
  simp only [vChain, Bool.and_eq_true, decide_eq_true_eq]
  exact ⟨⟨hi, h1⟩, ⟨⟨hk, hj⟩, h2⟩⟩

/-- Witness for the amended C4 at the EQ-chain matrix. -/
theorem c4_closure_propagates_eq_witness :
    poGet (poClosure poEq3) 0 2 = PoRel.eq :=
  c4_closure_propagates_eq poEq3 0 2 1 (by decide) (by decide) (by decide) (by decide)
    (by decide) (by decide) (by decide) (by decide)

/-- C5 (amended).  After closure of a well-formed, mirror-consistent,
conflict-free matrix, the strict relation is transitive: LT composed
with LT yields LT and GT composed with GT yields GT. -/
theorem c5_strict_transitive_after_closure :
    ∀ (po : Po) (u v w : Nat), WfPo po → mirrorOk po → ConsistentBnd po →
      u < po.dim → v < po.dim → w < po.dim →
      (poGet (poClosure po) u w = PoRel.lt → poGet (poClosure po) w v = PoRel.lt →
        poGet (poClosure po) u v = PoRel.lt) ∧
      (poGet (poClosure po) u w = PoRel.gt → poGet (poClosure po) w v = PoRel.gt →
        poGet (poClosure po) u v = PoRel.gt) := by
  intro po u v w hwf hmir hcons hu hv hw
  have hinv := closure_inv po hwf hmir
  have hcp := consBnd_to_po po hcons
  constructor
  · intro h1 h2
    have hr1 : NReach po PoRel.lt u w :=
      hinv.2.2.2 u w (by rw [hinv.1]; exact hu) (by rw [hinv.1]; exact hw) _ (by simp) h1
    have hr2 : NReach po PoRel.lt w v :=
      hinv.2.2.2 w v (by rw [hinv.1]; exact hw) (by rw [hinv.1]; exact hv) _ (by simp) h2
    exact closure_value po hwf hmir hcp PoRel.lt (by simp) u v hu hv
      (NReach_concat po _ u w v hr1 hr2)
  · intro h1 h2
    have hr1 : NReach po PoRel.gt u w :=
      hinv.2.2.2 u w (by rw [hinv.1]; exact hu) (by rw [hinv.1]; exact hw) _ (by simp) h1
    have hr2 : NReach po PoRel.gt w v :=
      hinv.2.2.2 w v (by rw [hinv.1]; exact hw) (by rw [hinv.1]; exact hv) _ (by simp) h2
    exact closure_value po hwf hmir hcp PoRel.gt (by simp) u v hu hv
      (NReach_concat po _ u w v hr1 hr2)

/-- Witness for the amended C5 at the chain `0 < 1 < 2`. -/
theorem c5_strict_transitive_after_closure_witness :
    poGet (poClosure poChain3) 0 2 = PoRel.lt ∧ poGet (poClosure poChain3) 2 0 = PoRel.gt :=
  ⟨(c5_strict_transitive_after_closure poChain3 0 2 1 (by decide) (by decide) (by decide) (by decide)
      (by decide) (by decide)).1 (by decide) (by decide),
   (c5_strict_transitive_after_closure poChain3 2 0 1 (by decide) (by decide) (by decide) (by decide)
      (by decide) (by decide)).2 (by decide) (by decide)⟩

/-- C6 (amended).  `poClosure` is idempotent on well-formed,
mirror-consistent, conflict-free matrices. -/
theorem c6_closure_idempotent_consistent :
    ∀ po : Po, WfPo po → mirrorOk po → ConsistentBnd po →
      poClosure (poClosure po) = poClosure po :=
  fun po h1 h2 h3 => closure_idem po h1 h2 (consBnd_to_po po h3)

/-- Witness for the amended C6 at the two-element order `0 < 1`. -/
theorem c6_closure_idempotent_consistent_witness :
    poClosure (poClosure poW8) = poClosure poW8 :=
  c6_closure_idempotent_consistent poW8 (by decide) (by decide) (by decide)

end Rcomb
